import Mathlib

/-!
# Verification of the revad reverse-mode automatic-differentiation engine

This development is a shallow embedding of the tape-based reverse-mode AD
engine of `src/core.rs` and `src/util.rs`.  The `f64` scalar type of the
source is modelled by an arbitrary `Field α`; the transcendental operations
of `f64` (`exp`, `ln`, the trigonometric and hyperbolic functions and the
real-exponent power `powf`) are abstracted into a `ScalarOps α` record, so
that every theorem holds in particular for `α = ℝ` with the standard real
interpretations.  `powi` is modelled by `zpow` on the field.

Rust's panics (index out of range, `unreachable!`, `panic!`, failed
assertions) are modelled by the `Except` error monad; the unbounded
recursion of `forward_step`/`backward_step` is modelled with explicit fuel,
`EvalErr.outOfFuel` marking fuel exhaustion (which the source avoids by the
append-only tape invariant, proved below).
-/

namespace Revad

/-- The `f64` operations of the source that have no algebraic counterpart in
an abstract field: transcendental functions and the real-valued power
`f64::powf`.  Instantiating `α := ℝ` with `Real.exp`, `Real.log`,
`Real.sin`, …, `Real.rpow` recovers the intended real semantics. -/
structure ScalarOps (α : Type) where
  fexp : α → α
  fln : α → α
  fsin : α → α
  fcos : α → α
  ftan : α → α
  fsinh : α → α
  fcosh : α → α
  ftanh : α → α
  fpow : α → α → α

/-- `enum Node` of `src/core.rs`: one tape operation record.  Operand `Nat`s
are tape indices; `α` fields are the literal `f64` constants of the mixed
variants, and `Powi` carries the `i32` exponent. -/
inductive Node (α : Type) where
  | Var : Nat → Node α
  | Add : Nat → Nat → Node α
  | Addf : α → Nat → Node α
  | Sub : Nat → Nat → Node α
  | Subf : Nat → α → Node α
  | Mul : Nat → Nat → Node α
  | Mulf : α → Nat → Node α
  | Div : Nat → Nat → Node α
  | Pow : Nat → Nat → Node α
  | Powf : Nat → α → Node α
  | Powi : Nat → Int → Node α
  | Neg : Nat → Node α
  | Recip : Nat → Node α
  | Exp : Nat → Node α
  | Ln : Nat → Node α
  | Sin : Nat → Node α
  | Cos : Nat → Node α
  | Tan : Nat → Node α
  | Sinh : Nat → Node α
  | Cosh : Nat → Node α
  | Tanh : Nat → Node α
deriving DecidableEq, Repr

/-- `struct Graph` of `src/core.rs`: the tape.  `Vec<f64>` becomes
`List α`, `Vec<Option<f64>>` becomes `List (Option α)`. -/
structure Graph (α : Type) where
  gradients : List α
  buffer : List (Option α)
  nodes : List (Node α)
  value_ics : List Nat
  compiled : Option Nat
deriving DecidableEq, Repr

/-- `Graph::default()`: the empty tape. -/
def Graph.empty (α : Type) : Graph α :=
  { gradients := [], buffer := [], nodes := [], value_ics := [], compiled := none }

/-- The Rust panic / error conditions, plus fuel exhaustion of the
embedding's bounded recursion. -/
inductive EvalErr where
  | outOfFuel
  | badIndex
  | unboundVar
  | noCompiled
  | assertFail
deriving DecidableEq, Repr

variable {α : Type}

/-- `Graph::var`: append a bound leaf (value slot `Some value`, gradient `0`,
node `Var(index)`, registered in `value_ics`); returns its index. -/
def Graph.var [Zero α] (g : Graph α) (value : α) : Nat × Graph α :=
  let index := g.buffer.length
  (index,
    { g with
      buffer := g.buffer ++ [some value]
      gradients := g.gradients ++ [0]
      nodes := g.nodes ++ [Node.Var index]
      value_ics := g.value_ics ++ [index] })

/-- `Graph::touch_vars`: append `n_vars` unbound leaves. -/
def Graph.touch_vars [Zero α] (g : Graph α) (n_vars : Nat) : Graph α :=
  let start_index := g.buffer.length
  { g with
    buffer := g.buffer ++ List.replicate n_vars none
    gradients := g.gradients ++ List.replicate n_vars 0
    nodes := g.nodes ++ (List.range n_vars).map (fun i => Node.Var (start_index + i))
    value_ics := g.value_ics ++ (List.range n_vars).map (fun i => start_index + i) }

/-- `Graph::subs_vars`: `assert!(value_ics.len() >= vals.len())` is the
`none` branch; otherwise each value is zipped with the variable index list
and written into the buffer.  (`List.set` out of range is a no-op where Rust
would panic; all `value_ics` entries of a constructed tape are in range.) -/
def Graph.subs_vars (g : Graph α) (vals : List α) : Option (Graph α) :=
  if g.value_ics.length ≥ vals.length then
    some { g with
           buffer := (g.value_ics.zip vals).foldl
             (fun b p => b.set p.1 (some p.2)) g.buffer }
  else none

/-- Body shared by the `impl_unary_op!`/`impl_binary_op!` macros and the
hand-written mixed constructors of `Graph`: append `node` with an unknown
value slot and a zero gradient slot, returning `self.nodes.len()`. -/
def Graph.pushNode [Zero α] (g : Graph α) (node : Node α) : Nat × Graph α :=
  (g.nodes.length,
    { g with
      buffer := g.buffer ++ [none]
      gradients := g.gradients ++ [0]
      nodes := g.nodes ++ [node] })

/-- `Graph::add` (from `impl_binary_op!(add)`). -/
def Graph.add [Zero α] (g : Graph α) (left right : Nat) : Nat × Graph α :=
  g.pushNode (Node.Add left right)

/-- `Graph::sub`. -/
def Graph.sub [Zero α] (g : Graph α) (left right : Nat) : Nat × Graph α :=
  g.pushNode (Node.Sub left right)

/-- `Graph::mul`. -/
def Graph.mul [Zero α] (g : Graph α) (left right : Nat) : Nat × Graph α :=
  g.pushNode (Node.Mul left right)

/-- `Graph::div`. -/
def Graph.div [Zero α] (g : Graph α) (left right : Nat) : Nat × Graph α :=
  g.pushNode (Node.Div left right)

/-- `Graph::pow`. -/
def Graph.pow [Zero α] (g : Graph α) (left right : Nat) : Nat × Graph α :=
  g.pushNode (Node.Pow left right)

/-- `Graph::addf`. -/
def Graph.addf [Zero α] (g : Graph α) (num : α) (right : Nat) : Nat × Graph α :=
  g.pushNode (Node.Addf num right)

/-- `Graph::subf`. -/
def Graph.subf [Zero α] (g : Graph α) (left : Nat) (num : α) : Nat × Graph α :=
  g.pushNode (Node.Subf left num)

/-- `Graph::mulf`. -/
def Graph.mulf [Zero α] (g : Graph α) (num : α) (right : Nat) : Nat × Graph α :=
  g.pushNode (Node.Mulf num right)

/-- `Graph::powf`. -/
def Graph.powf [Zero α] (g : Graph α) (operand : Nat) (power : α) : Nat × Graph α :=
  g.pushNode (Node.Powf operand power)

/-- `Graph::powi`. -/
def Graph.powi [Zero α] (g : Graph α) (operand : Nat) (power : Int) : Nat × Graph α :=
  g.pushNode (Node.Powi operand power)

/-- `Graph::neg` (from `impl_unary_op!(neg)`). -/
def Graph.neg [Zero α] (g : Graph α) (operand : Nat) : Nat × Graph α :=
  g.pushNode (Node.Neg operand)

/-- `Graph::recip`. -/
def Graph.recip [Zero α] (g : Graph α) (operand : Nat) : Nat × Graph α :=
  g.pushNode (Node.Recip operand)

/-- `Graph::exp`. -/
def Graph.exp [Zero α] (g : Graph α) (operand : Nat) : Nat × Graph α :=
  g.pushNode (Node.Exp operand)

/-- `Graph::ln`. -/
def Graph.ln [Zero α] (g : Graph α) (operand : Nat) : Nat × Graph α :=
  g.pushNode (Node.Ln operand)

/-- `Graph::sin`. -/
def Graph.sin [Zero α] (g : Graph α) (operand : Nat) : Nat × Graph α :=
  g.pushNode (Node.Sin operand)

/-- `Graph::cos`. -/
def Graph.cos [Zero α] (g : Graph α) (operand : Nat) : Nat × Graph α :=
  g.pushNode (Node.Cos operand)

/-- `Graph::tan`. -/
def Graph.tan [Zero α] (g : Graph α) (operand : Nat) : Nat × Graph α :=
  g.pushNode (Node.Tan operand)

/-- `Graph::sinh`. -/
def Graph.sinh [Zero α] (g : Graph α) (operand : Nat) : Nat × Graph α :=
  g.pushNode (Node.Sinh operand)

/-- `Graph::cosh`. -/
def Graph.cosh [Zero α] (g : Graph α) (operand : Nat) : Nat × Graph α :=
  g.pushNode (Node.Cosh operand)

/-- `Graph::tanh`. -/
def Graph.tanh [Zero α] (g : Graph α) (operand : Nat) : Nat × Graph α :=
  g.pushNode (Node.Tanh operand)

/-- `Graph::forward_step`: memoized forward evaluation.  A memo hit
(`Some(value)`) returns at once; otherwise the node's formula is computed
from recursively evaluated operands and stored into `buffer[index]`.
`self.buffer[index]`/`self.nodes[index]` out of range is `badIndex`
(a Rust index panic), an unbound `Var` is the source's `unreachable!()`. -/
def forwardStep [Field α] (ops : ScalarOps α) :
    Nat → Graph α → Nat → Except EvalErr (α × Graph α)
  | 0, _, _ => .error .outOfFuel
  | fuel+1, g, index =>
    match g.buffer[index]? with
    | none => .error .badIndex
    | some (some value) => .ok (value, g)
    | some none =>
      match g.nodes[index]? with
      | none => .error .badIndex
      | some node =>
        (match node with
          | .Var _ => (.error .unboundVar : Except EvalErr (α × Graph α))
          | .Add l r => do
            let (lv, g1) ← forwardStep ops fuel g l
            let (rv, g2) ← forwardStep ops fuel g1 r
            pure (lv + rv, g2)
          | .Sub l r => do
            let (lv, g1) ← forwardStep ops fuel g l
            let (rv, g2) ← forwardStep ops fuel g1 r
            pure (lv - rv, g2)
          | .Addf num r => do
            let (rv, g1) ← forwardStep ops fuel g r
            pure (num + rv, g1)
          | .Subf l num => do
            let (lv, g1) ← forwardStep ops fuel g l
            pure (lv - num, g1)
          | .Mul l r => do
            let (lv, g1) ← forwardStep ops fuel g l
            let (rv, g2) ← forwardStep ops fuel g1 r
            pure (lv * rv, g2)
          | .Mulf num r => do
            let (rv, g1) ← forwardStep ops fuel g r
            pure (num * rv, g1)
          | .Div l r => do
            let (lv, g1) ← forwardStep ops fuel g l
            let (rv, g2) ← forwardStep ops fuel g1 r
            pure (lv / rv, g2)
          | .Pow l r => do
            let (lv, g1) ← forwardStep ops fuel g l
            let (rv, g2) ← forwardStep ops fuel g1 r
            pure (ops.fpow lv rv, g2)
          | .Powf o power => do
            let (ov, g1) ← forwardStep ops fuel g o
            pure (ops.fpow ov power, g1)
          | .Powi o power => do
            let (ov, g1) ← forwardStep ops fuel g o
            pure (ov ^ power, g1)
          | .Neg o => do
            let (ov, g1) ← forwardStep ops fuel g o
            pure (-ov, g1)
          | .Recip o => do
            let (ov, g1) ← forwardStep ops fuel g o
            pure (1 / ov, g1)
          | .Exp o => do
            let (ov, g1) ← forwardStep ops fuel g o
            pure (ops.fexp ov, g1)
          | .Ln o => do
            let (ov, g1) ← forwardStep ops fuel g o
            pure (ops.fln ov, g1)
          | .Sin o => do
            let (ov, g1) ← forwardStep ops fuel g o
            pure (ops.fsin ov, g1)
          | .Cos o => do
            let (ov, g1) ← forwardStep ops fuel g o
            pure (ops.fcos ov, g1)
          | .Tan o => do
            let (ov, g1) ← forwardStep ops fuel g o
            pure (ops.ftan ov, g1)
          | .Sinh o => do
            let (ov, g1) ← forwardStep ops fuel g o
            pure (ops.fsinh ov, g1)
          | .Cosh o => do
            let (ov, g1) ← forwardStep ops fuel g o
            pure (ops.fcosh ov, g1)
          | .Tanh o => do
            let (ov, g1) ← forwardStep ops fuel g o
            pure (ops.ftanh ov, g1)) >>= fun rg =>
          .ok (rg.1, { rg.2 with buffer := rg.2.buffer.set index (some rg.1) })

/-- `Graph::reset`: set every non-variable value slot to `None` and every
gradient slot (non-variable ones in the first loop, variable ones in the
second) to zero. -/
def Graph.reset (g : Graph α) [Zero α] : Graph α :=
  let reset_ics := (List.range g.buffer.length).filter (fun x => !g.value_ics.contains x)
  let g1 :=
    { g with
      buffer := reset_ics.foldl (fun b i => b.set i none) g.buffer
      gradients := reset_ics.foldl (fun gr i => gr.set i 0) g.gradients }
  { g1 with gradients := g.value_ics.foldl (fun gr i => gr.set i 0) g1.gradients }

/-- `Graph::backward_step`: reverse accumulation.  The `Var` arm performs
`gradients[value_index] += upstream_gradient` (an out-of-range
`value_index` is a Rust index panic, hence `badIndex`); every composite arm
fetches the operand values it needs through the memoized forward evaluator
and recurses with the upstream gradient scaled by the local derivative,
exactly per the source arms. -/
def backwardStep [Field α] (ops : ScalarOps α) :
    Nat → Graph α → Nat → α → Except EvalErr (Graph α)
  | 0, _, _, _ => .error .outOfFuel
  | fuel+1, g, index, upstream =>
    match g.nodes[index]? with
    | none => .error .badIndex
    | some node =>
      match node with
      | .Var value_index =>
        if value_index < g.gradients.length then
          let gr := g.gradients.set value_index (g.gradients.getD value_index 0 + upstream)
          .ok { g with gradients := gr }
        else .error .badIndex
      | .Add l r => do
        let g1 ← backwardStep ops fuel g l upstream
        backwardStep ops fuel g1 r upstream
      | .Addf _ r => backwardStep ops fuel g r upstream
      | .Sub l r => do
        let g1 ← backwardStep ops fuel g l upstream
        backwardStep ops fuel g1 r (-upstream)
      | .Subf l _ => backwardStep ops fuel g l upstream
      | .Mul l r => do
        let (left_val, ga) ← forwardStep ops fuel g l
        let (right_val, gb) ← forwardStep ops fuel ga r
        let g1 ← backwardStep ops fuel gb l (right_val * upstream)
        backwardStep ops fuel g1 r (left_val * upstream)
      | .Mulf num r => backwardStep ops fuel g r (num * upstream)
      | .Div l r => do
        let (left_val, ga) ← forwardStep ops fuel g l
        let (right_val, gb) ← forwardStep ops fuel ga r
        let g1 ← backwardStep ops fuel gb l (upstream / right_val)
        backwardStep ops fuel g1 r (-upstream * left_val / right_val ^ (2:Int))
      | .Pow l r => do
        let (left_val, ga) ← forwardStep ops fuel g l
        let (right_val, gb) ← forwardStep ops fuel ga r
        let g1 ← backwardStep ops fuel gb l
          (right_val * ops.fpow left_val (right_val - 1) * upstream)
        backwardStep ops fuel g1 r
          (ops.fln left_val * ops.fpow left_val (right_val - 1) * upstream)
      | .Powf o power => do
        let (operand_val, ga) ← forwardStep ops fuel g o
        backwardStep ops fuel ga o
          (power * ops.fpow operand_val (power - 1) * upstream)
      | .Powi o power => do
        let (operand_val, ga) ← forwardStep ops fuel g o
        backwardStep ops fuel ga o
          ((power : α) * operand_val ^ (power - 1) * upstream)
      | .Neg o => do
        let (operand_val, ga) ← forwardStep ops fuel g o
        backwardStep ops fuel ga o (-upstream * operand_val)
      | .Recip o => do
        let (operand_val, ga) ← forwardStep ops fuel g o
        backwardStep ops fuel ga o (-upstream / operand_val ^ (2:Int))
      | .Exp o => do
        let (operand_val, ga) ← forwardStep ops fuel g o
        backwardStep ops fuel ga o (ops.fexp operand_val * upstream)
      | .Ln o => do
        let (operand_val, ga) ← forwardStep ops fuel g o
        backwardStep ops fuel ga o (upstream / operand_val)
      | .Sin o => do
        let (operand_val, ga) ← forwardStep ops fuel g o
        backwardStep ops fuel ga o (ops.fcos operand_val * upstream)
      | .Cos o => do
        let (operand_val, ga) ← forwardStep ops fuel g o
        backwardStep ops fuel ga o (-ops.fsin operand_val * upstream)
      | .Tan o => do
        let (operand_val, ga) ← forwardStep ops fuel g o
        backwardStep ops fuel ga o ((1 + ops.ftan operand_val ^ (2:Int)) * upstream)
      | .Sinh o => do
        let (operand_val, ga) ← forwardStep ops fuel g o
        backwardStep ops fuel ga o (ops.fcosh operand_val * upstream)
      | .Cosh o => do
        let (operand_val, ga) ← forwardStep ops fuel g o
        backwardStep ops fuel ga o (ops.fsinh operand_val * upstream)
      | .Tanh o => do
        let (operand_val, ga) ← forwardStep ops fuel g o
        backwardStep ops fuel ga o ((1 - ops.ftanh operand_val ^ (2:Int)) * upstream)

/-- `Graph::get_gradient` (`self.gradients[index]`; out of range is a Rust
index panic, modelled by the default `0` — unused on constructed tapes). -/
def Graph.get_gradient (g : Graph α) [Zero α] (index : Nat) : α :=
  g.gradients.getD index 0

/-- `Graph::get_gradients`: gradients of the declared variables in
declaration order. -/
def Graph.get_gradients (g : Graph α) [Zero α] : List α :=
  g.value_ics.map (fun x => g.get_gradient x)

/-- `enum Expr` of `src/core.rs`: the symbolic expression tree. -/
inductive Expr (α : Type) where
  | Symbol : Nat → Expr α
  | Add : Expr α → Expr α → Expr α
  | Addf : α → Expr α → Expr α
  | Sub : Expr α → Expr α → Expr α
  | Subf : Expr α → α → Expr α
  | Mul : Expr α → Expr α → Expr α
  | Mulf : α → Expr α → Expr α
  | Div : Expr α → Expr α → Expr α
  | Pow : Expr α → Expr α → Expr α
  | Powf : Expr α → α → Expr α
  | Powi : Expr α → Int → Expr α
  | Neg : Expr α → Expr α
  | Recip : Expr α → Expr α
  | Exp : Expr α → Expr α
  | Ln : Expr α → Expr α
  | Sin : Expr α → Expr α
  | Cos : Expr α → Expr α
  | Tan : Expr α → Expr α
  | Sinh : Expr α → Expr α
  | Cosh : Expr α → Expr α
  | Tanh : Expr α → Expr α
deriving DecidableEq, Repr

/-- `parse_expr`: lower an `Expr` onto the tape, post-order; a `Symbol`
resolves to the tape index it names without creating a node. -/
def parse_expr [Zero α] : Expr α → Graph α → Nat × Graph α
  | .Symbol index, graph => (index, graph)
  | .Add left right, graph =>
    let (left_index, g1) := parse_expr left graph
    let (right_index, g2) := parse_expr right g1
    g2.add left_index right_index
  | .Addf num right, graph =>
    let (right_index, g1) := parse_expr right graph
    g1.addf num right_index
  | .Sub left right, graph =>
    let (left_index, g1) := parse_expr left graph
    let (right_index, g2) := parse_expr right g1
    g2.sub left_index right_index
  | .Subf left num, graph =>
    let (left_index, g1) := parse_expr left graph
    g1.subf left_index num
  | .Mul left right, graph =>
    let (left_index, g1) := parse_expr left graph
    let (right_index, g2) := parse_expr right g1
    g2.mul left_index right_index
  | .Mulf num right, graph =>
    let (right_index, g1) := parse_expr right graph
    g1.mulf num right_index
  | .Div left right, graph =>
    let (left_index, g1) := parse_expr left graph
    let (right_index, g2) := parse_expr right g1
    g2.div left_index right_index
  | .Pow left right, graph =>
    let (left_index, g1) := parse_expr left graph
    let (right_index, g2) := parse_expr right g1
    g2.pow left_index right_index
  | .Powf left power, graph =>
    let (left_index, g1) := parse_expr left graph
    g1.powf left_index power
  | .Powi left power, graph =>
    let (left_index, g1) := parse_expr left graph
    g1.powi left_index power
  | .Neg e, graph =>
    let (index, g1) := parse_expr e graph
    g1.neg index
  | .Recip e, graph =>
    let (index, g1) := parse_expr e graph
    g1.recip index
  | .Exp e, graph =>
    let (index, g1) := parse_expr e graph
    g1.exp index
  | .Ln e, graph =>
    let (index, g1) := parse_expr e graph
    g1.ln index
  | .Sin e, graph =>
    let (index, g1) := parse_expr e graph
    g1.sin index
  | .Cos e, graph =>
    let (index, g1) := parse_expr e graph
    g1.cos index
  | .Tan e, graph =>
    let (index, g1) := parse_expr e graph
    g1.tan index
  | .Sinh e, graph =>
    let (index, g1) := parse_expr e graph
    g1.sinh index
  | .Cosh e, graph =>
    let (index, g1) := parse_expr e graph
    g1.cosh index
  | .Tanh e, graph =>
    let (index, g1) := parse_expr e graph
    g1.tanh index

/-- `Graph::compile`: `self.compiled = Some(parse_expr(expr, self))`. -/
def Graph.compile [Zero α] (g : Graph α) (expr : Expr α) : Graph α :=
  let (index, g') := parse_expr expr g
  { g' with compiled := some index }

/-- `Graph::forward`: evaluate the compiled root, or the source's
`panic!("No compiled expression")`. -/
def Graph.forward [Field α] (ops : ScalarOps α) (fuel : Nat) (g : Graph α) :
    Except EvalErr (α × Graph α) :=
  match g.compiled with
  | some idx => forwardStep ops fuel g idx
  | none => .error .noCompiled

/-- `Graph::backward`: seed the compiled root with gradient `1.0`, or the
source's `panic!("No compiled expression")`. -/
def Graph.backward [Field α] (ops : ScalarOps α) (fuel : Nat) (g : Graph α) :
    Except EvalErr (Graph α) :=
  match g.compiled with
  | some idx => backwardStep ops fuel g idx 1
  | none => .error .noCompiled

/-- `gradient_cached` of `src/util.rs`: reset, rebind, forward, backward,
then return the scalar result together with the gradient vector. -/
def gradient_cached [Field α] (ops : ScalarOps α) (fuel : Nat)
    (g : Graph α) (x : List α) : Except EvalErr (α × List α) :=
  match g.reset.subs_vars x with
  | none => .error .assertFail
  | some g1 => do
    let (result, g2) ← g1.forward ops fuel
    let g3 ← g2.backward ops fuel
    pure (result, g3.get_gradients)

/-- `impl Add<Expr> for f64` (and, identically up to `clone`,
`impl Add<&Expr> for f64`): `c + e` builds `Addf(c, e)`. -/
def f64_add_expr (c : α) (rhs : Expr α) : Expr α :=
  Expr.Addf c rhs

/-- `impl Sub<Expr> for f64`: `c - e` builds `Neg(Subf(e, c))`. -/
def f64_sub_expr (c : α) (rhs : Expr α) : Expr α :=
  Expr.Neg (Expr.Subf rhs c)

/-- `impl Sub<&Expr> for f64`: `c - &e` builds `Subf(e, c)` — unlike the
owned-`Expr` overload, no `Neg` is applied. -/
def f64_sub_expr_ref (c : α) (rhs : Expr α) : Expr α :=
  Expr.Subf rhs c

/-- `impl Mul<Expr> for f64` (and `impl Mul<&Expr> for f64`):
`c * e` builds `Mulf(c, e)`. -/
def f64_mul_expr (c : α) (rhs : Expr α) : Expr α :=
  Expr.Mulf c rhs

/-- `impl Div<Expr> for f64` (and `impl Div<&Expr> for f64`): the body is
`Expr::Recip(Box::new(rhs))`; the dividend `self` is discarded. -/
def f64_div_expr (_c : α) (rhs : Expr α) : Expr α :=
  Expr.Recip rhs


theorem except_bind_ok_iff {ε β γ : Type} {x : Except ε β} {f : β → Except ε γ} {c : γ} :
    (x >>= f) = .ok c ↔ ∃ b, x = .ok b ∧ f b = .ok c := by
  cases x <;> simp [Bind.bind, Except.bind]

theorem except_pure {ε β : Type} (a : β) : (pure a : Except ε β) = Except.ok a := rfl

/-- State facts preserved by a successful `forward_step` call: everything but
the value buffer is untouched, the buffer keeps its length, and every value
slot that was already known keeps its value. -/
def FwdFrame (g g' : Graph α) : Prop :=
  g'.nodes = g.nodes ∧ g'.gradients = g.gradients ∧ g'.value_ics = g.value_ics ∧
  g'.compiled = g.compiled ∧ g'.buffer.length = g.buffer.length ∧
  (∀ (j : Nat) (w : α), g.buffer[j]? = some (some w) → g'.buffer[j]? = some (some w))

theorem FwdFrame.fwd_refl (g : Graph α) : FwdFrame g g :=
  ⟨rfl, rfl, rfl, rfl, rfl, fun _ _ h => h⟩

theorem FwdFrame.fwd_trans {g1 g2 g3 : Graph α} (h12 : FwdFrame g1 g2) (h23 : FwdFrame g2 g3) :
    FwdFrame g1 g3 :=
  ⟨h23.1.trans h12.1, h23.2.1.trans h12.2.1, h23.2.2.1.trans h12.2.2.1,
    h23.2.2.2.1.trans h12.2.2.2.1, h23.2.2.2.2.1.trans h12.2.2.2.2.1,
    fun j w h => h23.2.2.2.2.2 j w (h12.2.2.2.2.2 j w h)⟩

theorem FwdFrame.store {g g2 : Graph α} {i : Nat} (res : α)
    (hb : g.buffer[i]? = some none) (h2 : FwdFrame g g2) :
    FwdFrame g { g2 with buffer := g2.buffer.set i (some res) } ∧
      (g2.buffer.set i (some res))[i]? = some (some res) := by
  obtain ⟨hn, hg, hv, hc, hl, hp⟩ := h2
  have hlen : i < g.buffer.length := (List.getElem?_eq_some.mp hb).1
  have hlen2 : i < g2.buffer.length := hl ▸ hlen
  refine ⟨⟨hn, hg, hv, hc, by simp [List.length_set, hl], ?_⟩,
    List.getElem?_set_self hlen2⟩
  intro j w hj
  rcases eq_or_ne i j with rfl | hne
  · rw [hb] at hj; simp at hj
  · rw [List.getElem?_set_ne hne]; exact hp j w hj

/-- Frame, memoization and persistence facts about one successful
`forward_step` call. -/
theorem forwardStep_ok [Field α] (ops : ScalarOps α) :
    ∀ (fuel : Nat) (g : Graph α) (i : Nat) (v : α) (g' : Graph α),
      forwardStep ops fuel g i = .ok (v, g') →
      FwdFrame g g' ∧ g'.buffer[i]? = some (some v)
  | 0, g, i, v, g', h => by simp [forwardStep] at h
  | fuel+1, g, i, v, g', h => by
    rw [forwardStep] at h
    cases hb : g.buffer[i]? with
    | none => rw [hb] at h; exact absurd h (by simp)
    | some ob =>
      cases ob with
      | some w =>
        rw [hb] at h
        simp only [Except.ok.injEq, Prod.mk.injEq] at h
        obtain ⟨rfl, rfl⟩ := h
        exact ⟨FwdFrame.fwd_refl g, hb⟩
      | none =>
        rw [hb] at h
        cases hn : g.nodes[i]? with
        | none => rw [hn] at h; exact absurd h (by simp)
        | some node =>
          rw [hn] at h
          cases node
          all_goals
            first
            | (rw [except_bind_ok_iff] at h
               obtain ⟨⟨res, gx⟩, hinner, houter⟩ := h
               rw [except_bind_ok_iff] at hinner
               obtain ⟨⟨lv, g1⟩, hl, hinner⟩ := hinner
               rw [except_bind_ok_iff] at hinner
               obtain ⟨⟨rv, g2⟩, hr, hinner⟩ := hinner
               simp only [except_pure, Except.ok.injEq, Prod.mk.injEq] at hinner houter
               obtain ⟨rfl, rfl⟩ := hinner
               obtain ⟨rfl, rfl⟩ := houter
               exact FwdFrame.store _ hb
                 ((forwardStep_ok ops fuel _ _ _ _ hl).1.fwd_trans
                  (forwardStep_ok ops fuel _ _ _ _ hr).1))
            | (rw [except_bind_ok_iff] at h
               obtain ⟨⟨res, gx⟩, hinner, houter⟩ := h
               rw [except_bind_ok_iff] at hinner
               obtain ⟨⟨ov, g1⟩, ho, hinner⟩ := hinner
               simp only [except_pure, Except.ok.injEq, Prod.mk.injEq] at hinner houter
               obtain ⟨rfl, rfl⟩ := hinner
               obtain ⟨rfl, rfl⟩ := houter
               exact FwdFrame.store _ hb (forwardStep_ok ops fuel _ _ _ _ ho).1)
            | simp [Bind.bind, Except.bind] at h


/-- The operand tape indices into which the forward and backward traversals
of a node recurse (a `Var` leaf recurses into nothing). -/
def Node.operands : Node α → List Nat
  | .Var _ => []
  | .Add l r => [l, r]
  | .Addf _ r => [r]
  | .Sub l r => [l, r]
  | .Subf l _ => [l]
  | .Mul l r => [l, r]
  | .Mulf _ r => [r]
  | .Div l r => [l, r]
  | .Pow l r => [l, r]
  | .Powf o _ => [o]
  | .Powi o _ => [o]
  | .Neg o => [o]
  | .Recip o => [o]
  | .Exp o => [o]
  | .Ln o => [o]
  | .Sin o => [o]
  | .Cos o => [o]
  | .Tan o => [o]
  | .Sinh o => [o]
  | .Cosh o => [o]
  | .Tanh o => [o]

/-- The §3 tape invariant: a node at tape index `i` references only operand
indices strictly less than `i`. -/
def NodeInv (g : Graph α) : Prop :=
  ∀ (i j : Nat) (n : Node α), g.nodes[i]? = some n → j ∈ n.operands → j < i

theorem NodeInv.of_nodes_eq {g g' : Graph α} (h : NodeInv g) (he : g'.nodes = g.nodes) :
    NodeInv g' :=
  fun i j n hn hm => h i j n (he ▸ hn) hm

theorem except_bind_error_iff {ε β γ : Type} {x : Except ε β} {f : β → Except ε γ} {e : ε} :
    (x >>= f) = .error e ↔ x = .error e ∨ ∃ b, x = .ok b ∧ f b = .error e := by
  cases x <;> simp [Bind.bind, Except.bind]

/-- State facts preserved by a successful `backward_step` call: tape
structure and the compiled root are untouched, both parallel buffers keep
their length, and every known value slot keeps its value. -/
def BwdFrame (g g' : Graph α) : Prop :=
  g'.nodes = g.nodes ∧ g'.value_ics = g.value_ics ∧ g'.compiled = g.compiled ∧
  g'.buffer.length = g.buffer.length ∧ g'.gradients.length = g.gradients.length ∧
  (∀ (j : Nat) (w : α), g.buffer[j]? = some (some w) → g'.buffer[j]? = some (some w))

theorem BwdFrame.bwd_refl (g : Graph α) : BwdFrame g g :=
  ⟨rfl, rfl, rfl, rfl, rfl, fun _ _ h => h⟩

theorem BwdFrame.bwd_trans {g1 g2 g3 : Graph α} (h12 : BwdFrame g1 g2) (h23 : BwdFrame g2 g3) :
    BwdFrame g1 g3 :=
  ⟨h23.1.trans h12.1, h23.2.1.trans h12.2.1, h23.2.2.1.trans h12.2.2.1,
    h23.2.2.2.1.trans h12.2.2.2.1, h23.2.2.2.2.1.trans h12.2.2.2.2.1,
    fun j w h => h23.2.2.2.2.2 j w (h12.2.2.2.2.2 j w h)⟩

theorem FwdFrame.toBwd {g g' : Graph α} (h : FwdFrame g g') : BwdFrame g g' :=
  ⟨h.1, h.2.2.1, h.2.2.2.1, h.2.2.2.2.1, by rw [h.2.1], h.2.2.2.2.2⟩

/-- The `Var` arm of `backward_step` on success: only the addressed gradient
slot changes. -/
theorem bwd_var_frame {g g' : Graph α} [Field α] {vi : Nat} {u : α}
    (h : (if vi < g.gradients.length then
            let gr := g.gradients.set vi (g.gradients.getD vi 0 + u)
            (Except.ok { g with gradients := gr } : Except EvalErr (Graph α))
          else Except.error EvalErr.badIndex) = Except.ok g') :
    BwdFrame g g' := by
  split at h
  · simp only [Except.ok.injEq] at h
    subst h
    exact ⟨rfl, rfl, rfl, rfl, by simp, fun j w hj => hj⟩
  · exact absurd h (by simp)

/-- Frame facts about one successful `backward_step` call. -/
theorem backwardStep_ok [Field α] (ops : ScalarOps α) :
    ∀ (fuel : Nat) (g : Graph α) (i : Nat) (u : α) (g' : Graph α),
      backwardStep ops fuel g i u = .ok g' → BwdFrame g g'
  | 0, g, i, u, g', h => by simp [backwardStep] at h
  | fuel+1, g, i, u, g', h => by
    rw [backwardStep] at h
    cases hn : g.nodes[i]? with
    | none => rw [hn] at h; exact absurd h (by simp)
    | some node =>
      rw [hn] at h
      cases node
      all_goals
        first
        | (rw [except_bind_ok_iff] at h
           obtain ⟨⟨lv, ga⟩, hf1, h⟩ := h
           rw [except_bind_ok_iff] at h
           obtain ⟨⟨rv, gb⟩, hf2, h⟩ := h
           rw [except_bind_ok_iff] at h
           obtain ⟨g1, hb1, hb2⟩ := h
           exact (((forwardStep_ok ops fuel _ _ _ _ hf1).1.toBwd).bwd_trans
                    ((forwardStep_ok ops fuel _ _ _ _ hf2).1.toBwd)).bwd_trans
                 ((backwardStep_ok ops fuel _ _ _ _ hb1).bwd_trans
                    (backwardStep_ok ops fuel _ _ _ _ hb2)))
        | (rw [except_bind_ok_iff] at h
           obtain ⟨⟨ov, ga⟩, hf, hb2⟩ := h
           exact ((forwardStep_ok ops fuel _ _ _ _ hf).1.toBwd).bwd_trans
             (backwardStep_ok ops fuel _ _ _ _ hb2))
        | (rw [except_bind_ok_iff] at h
           obtain ⟨g1, hb1, hb2⟩ := h
           exact (backwardStep_ok ops fuel _ _ _ _ hb1).bwd_trans
             (backwardStep_ok ops fuel _ _ _ _ hb2))
        | exact backwardStep_ok ops fuel _ _ _ _ h
        | exact bwd_var_frame h

/-- With the §3 index invariant, `forward_step` with fuel exceeding the
index never exhausts its fuel: the genuine recursion terminates. -/
theorem forwardStep_no_fuel [Field α] (ops : ScalarOps α) :
    ∀ (fuel : Nat) (g : Graph α) (i : Nat) (e : EvalErr), NodeInv g → i < fuel →
      forwardStep ops fuel g i = .error e → e ≠ .outOfFuel
  | 0, _, i, _, _, hlt, _ => by omega
  | fuel+1, g, i, e, hinv, hlt, h => by
    rw [forwardStep] at h
    cases hb : g.buffer[i]? with
    | none =>
      rw [hb] at h
      simp only [Except.error.injEq] at h
      subst h; simp
    | some ob =>
      cases ob with
      | some w => rw [hb] at h; exact absurd h (by simp)
      | none =>
        rw [hb] at h
        cases hn : g.nodes[i]? with
        | none =>
          rw [hn] at h
          simp only [Except.error.injEq] at h
          subst h; simp
        | some node =>
          rw [hn] at h
          have hbound : ∀ j ∈ node.operands, j < fuel := fun j hj =>
            lt_of_lt_of_le (hinv i j _ hn hj) (Nat.lt_succ_iff.mp hlt)
          cases node
          all_goals
            first
            | (rw [except_bind_error_iff] at h
               rcases h with h | ⟨p, hp, hpure⟩
               · rw [except_bind_error_iff] at h
                 rcases h with h | ⟨⟨lv, g1⟩, hl, h⟩
                 · refine forwardStep_no_fuel ops fuel g _ e hinv ?_ h
                   exact hbound _ (by simp [Node.operands])
                 · rw [except_bind_error_iff] at h
                   rcases h with h | ⟨⟨rv, g2⟩, hr, h⟩
                   · refine forwardStep_no_fuel ops fuel g1 _ e
                       (hinv.of_nodes_eq (forwardStep_ok ops fuel _ _ _ _ hl).1.1) ?_ h
                     exact hbound _ (by simp [Node.operands])
                   · exact absurd h (by simp [except_pure])
               · exact absurd hpure (by simp))
            | (rw [except_bind_error_iff] at h
               rcases h with h | ⟨p, hp, hpure⟩
               · rw [except_bind_error_iff] at h
                 rcases h with h | ⟨⟨ov, g1⟩, ho, h⟩
                 · refine forwardStep_no_fuel ops fuel g _ e hinv ?_ h
                   exact hbound _ (by simp [Node.operands])
                 · exact absurd h (by simp [except_pure])
               · exact absurd hpure (by simp))
            | (simp only [Bind.bind, Except.bind, Except.error.injEq] at h
               subst h; simp)

/-- The `Var` arm of `backward_step` on failure: the only error is the
index panic, never fuel exhaustion. -/
theorem bwd_var_nf [Field α] {g : Graph α} {vi : Nat} {u : α} {e : EvalErr}
    (h : (if vi < g.gradients.length then
            let gr := g.gradients.set vi (g.gradients.getD vi 0 + u)
            (Except.ok { g with gradients := gr } : Except EvalErr (Graph α))
          else Except.error EvalErr.badIndex) = Except.error e) :
    e ≠ .outOfFuel := by
  split at h
  · exact absurd h (by simp)
  · simp only [Except.error.injEq] at h
    subst h
    simp

/-- With the §3 index invariant, `backward_step` with fuel exceeding the
index never exhausts its fuel. -/
theorem backwardStep_no_fuel [Field α] (ops : ScalarOps α) :
    ∀ (fuel : Nat) (g : Graph α) (i : Nat) (u : α) (e : EvalErr), NodeInv g → i < fuel →
      backwardStep ops fuel g i u = .error e → e ≠ .outOfFuel
  | 0, _, i, _, _, _, hlt, _ => by omega
  | fuel+1, g, i, u, e, hinv, hlt, h => by
    rw [backwardStep] at h
    cases hn : g.nodes[i]? with
    | none =>
      rw [hn] at h
      simp only [Except.error.injEq] at h
      subst h; simp
    | some node =>
      rw [hn] at h
      have hbound : ∀ j ∈ node.operands, j < fuel := fun j hj =>
        lt_of_lt_of_le (hinv i j _ hn hj) (Nat.lt_succ_iff.mp hlt)
      cases node
      all_goals
        first
        | (rw [except_bind_error_iff] at h
           rcases h with h | ⟨⟨lv, ga⟩, hf1, h⟩
           · refine forwardStep_no_fuel ops fuel g _ e hinv ?_ h
             exact hbound _ (by simp [Node.operands])
           · rw [except_bind_error_iff] at h
             rcases h with h | ⟨⟨rv, gb⟩, hf2, h⟩
             · refine forwardStep_no_fuel ops fuel ga _ e
                 (hinv.of_nodes_eq (forwardStep_ok ops fuel _ _ _ _ hf1).1.1) ?_ h
               exact hbound _ (by simp [Node.operands])
             · rw [except_bind_error_iff] at h
               rcases h with h | ⟨g1, hb1, h⟩
               · refine backwardStep_no_fuel ops fuel gb _ _ e
                   (hinv.of_nodes_eq ((forwardStep_ok ops fuel _ _ _ _ hf1).1.fwd_trans
                      (forwardStep_ok ops fuel _ _ _ _ hf2).1).1) ?_ h
                 exact hbound _ (by simp [Node.operands])
               · refine backwardStep_no_fuel ops fuel g1 _ _ e
                   (hinv.of_nodes_eq (by
                     rw [(backwardStep_ok ops fuel _ _ _ _ hb1).1,
                       (forwardStep_ok ops fuel _ _ _ _ hf2).1.1,
                       (forwardStep_ok ops fuel _ _ _ _ hf1).1.1])) ?_ h
                 exact hbound _ (by simp [Node.operands]))
        | (rw [except_bind_error_iff] at h
           rcases h with h | ⟨⟨ov, ga⟩, hf, h⟩
           · refine forwardStep_no_fuel ops fuel g _ e hinv ?_ h
             exact hbound _ (by simp [Node.operands])
           · refine backwardStep_no_fuel ops fuel ga _ _ e
               (hinv.of_nodes_eq (forwardStep_ok ops fuel _ _ _ _ hf).1.1) ?_ h
             exact hbound _ (by simp [Node.operands]))
        | (rw [except_bind_error_iff] at h
           rcases h with h | ⟨g1, hb1, h⟩
           · refine backwardStep_no_fuel ops fuel g _ _ e hinv ?_ h
             exact hbound _ (by simp [Node.operands])
           · refine backwardStep_no_fuel ops fuel g1 _ _ e
               (hinv.of_nodes_eq (backwardStep_ok ops fuel _ _ _ _ hb1).1) ?_ h
             exact hbound _ (by simp [Node.operands]))
        | (refine backwardStep_no_fuel ops fuel g _ _ e hinv ?_ h
           exact hbound _ (by simp [Node.operands]))
        | exact bwd_var_nf h


theorem foldl_set_const_length {β : Type} (l : List Nat) (v : β) (b : List β) :
    (l.foldl (fun acc i => acc.set i v) b).length = b.length := by
  induction l generalizing b with
  | nil => rfl
  | cons x xs ih => rw [List.foldl_cons, ih, List.length_set]

theorem foldl_set_const_getElem {β : Type} (l : List Nat) (v : β) (b : List β) (j : Nat) :
    (l.foldl (fun acc i => acc.set i v) b)[j]? =
      if j ∈ l ∧ j < b.length then some v else b[j]? := by
  induction l generalizing b with
  | nil => simp
  | cons x xs ih =>
    rw [List.foldl_cons, ih, List.length_set]
    by_cases hj : j < b.length
    · by_cases hm : j ∈ xs
      · simp [hm, hj]
      · by_cases hx : x = j
        · subst hx; simp [hm, hj, List.getElem?_set]
        · have hx2 : ¬ j = x := fun h => hx h.symm
          simp [hm, hj, hx2, List.getElem?_set_ne hx]
    · have hnone : b[j]? = none := List.getElem?_eq_none (le_of_not_lt hj)
      have hnone2 : (b.set x v)[j]? = none := by
        rw [List.getElem?_eq_none_iff, List.length_set]
        exact le_of_not_lt hj
      simp [hj, hnone, hnone2]

theorem foldl_set_pairs_length (l : List (Nat × α)) (b : List (Option α)) :
    (l.foldl (fun acc p => acc.set p.1 (some p.2)) b).length = b.length := by
  induction l generalizing b with
  | nil => rfl
  | cons x xs ih => rw [List.foldl_cons, ih, List.length_set]

theorem foldl_set_pairs_not_mem {l : List (Nat × α)} {b : List (Option α)} {j : Nat}
    (hj : j ∉ l.map Prod.fst) :
    (l.foldl (fun acc p => acc.set p.1 (some p.2)) b)[j]? = b[j]? := by
  induction l generalizing b with
  | nil => rfl
  | cons x xs ih =>
    simp only [List.map_cons, List.mem_cons, not_or] at hj
    rw [List.foldl_cons, ih hj.2, List.getElem?_set_ne (Ne.symm hj.1)]

theorem foldl_set_pairs_mem {l : List (Nat × α)} (b : List (Option α))
    (hnd : (l.map Prod.fst).Nodup) {p : Nat × α} (hp : p ∈ l) :
    (l.foldl (fun acc q => acc.set q.1 (some q.2)) b)[p.1]? =
      if p.1 < b.length then some (some p.2) else none := by
  induction l generalizing b with
  | nil => cases hp
  | cons x xs ih =>
    simp only [List.map_cons, List.nodup_cons] at hnd
    rw [List.foldl_cons]
    rcases List.mem_cons.mp hp with rfl | hp
    · rw [foldl_set_pairs_not_mem hnd.1]
      by_cases hlt : p.1 < b.length <;> simp [hlt, List.getElem?_set]
    · rw [ih _ hnd.2 hp, List.length_set]

theorem map_fst_zip_eq_take (l1 : List Nat) (l2 : List α) :
    (l1.zip l2).map Prod.fst = l1.take l2.length := by
  induction l1 generalizing l2 with
  | nil => simp
  | cons x xs ih =>
    cases l2 with
    | nil => simp
    | cons y ys => simp [List.zip_cons_cons, ih]

theorem reset_nodes [Zero α] (g : Graph α) : g.reset.nodes = g.nodes := rfl

theorem reset_value_ics [Zero α] (g : Graph α) : g.reset.value_ics = g.value_ics := rfl

theorem reset_compiled [Zero α] (g : Graph α) : g.reset.compiled = g.compiled := rfl

theorem reset_buffer_length [Zero α] (g : Graph α) :
    g.reset.buffer.length = g.buffer.length :=
  foldl_set_const_length _ _ _

theorem reset_gradients_length [Zero α] (g : Graph α) :
    g.reset.gradients.length = g.gradients.length := by
  show (g.value_ics.foldl (fun (gr : List α) i => gr.set i 0) _).length = _
  rw [foldl_set_const_length, foldl_set_const_length]

/-- Membership in `reset`'s first loop range: the non-variable indices of
the buffer. -/
theorem mem_reset_ics [Zero α] (g : Graph α) (j : Nat) :
    j ∈ (List.range g.buffer.length).filter (fun x => !g.value_ics.contains x) ↔
      j < g.buffer.length ∧ j ∉ g.value_ics := by
  simp [List.mem_filter, List.mem_range, List.elem_iff]

/-- The value buffer after `reset`: variable slots keep their value, every
other in-range slot becomes unknown. -/
theorem reset_buffer_getElem [Zero α] (g : Graph α) (j : Nat) :
    g.reset.buffer[j]? =
      if j < g.buffer.length ∧ j ∉ g.value_ics then some none else g.buffer[j]? := by
  show (((List.range g.buffer.length).filter (fun x => !g.value_ics.contains x)).foldl
      (fun (b : List (Option α)) i => b.set i none) g.buffer)[j]? = _
  rw [foldl_set_const_getElem]
  by_cases hm : j < g.buffer.length ∧ j ∉ g.value_ics
  · simp [(mem_reset_ics g j).mpr hm, hm, hm.1]
  · simp only [if_neg hm, ite_eq_right_iff, and_imp]
    intro hmem _
    exact absurd ((mem_reset_ics g j).mp hmem) hm

/-- The gradient buffer after `reset`: provided the parallel-length
invariant, every in-range gradient slot is zero. -/
theorem reset_gradients_getElem [Zero α] (g : Graph α)
    (hlen : g.gradients.length = g.buffer.length) (j : Nat) (hj : j < g.gradients.length) :
    g.reset.gradients[j]? = some 0 := by
  show (g.value_ics.foldl (fun (gr : List α) i => gr.set i 0) _)[j]? = _
  rw [foldl_set_const_getElem, foldl_set_const_getElem, foldl_set_const_length]
  by_cases hv : j ∈ g.value_ics
  · simp [hv, hj]
  · have hb : j < g.buffer.length := hlen ▸ hj
    simp [hv, (mem_reset_ics g j).mpr ⟨hb, hv⟩, hj]
    exact fun h => absurd hb (Nat.not_lt.mpr h)


/-- The tape indices named by the `Symbol` leaves of an expression. -/
def Expr.symbols : Expr α → List Nat
  | .Symbol i => [i]
  | .Add l r => l.symbols ++ r.symbols
  | .Sub l r => l.symbols ++ r.symbols
  | .Mul l r => l.symbols ++ r.symbols
  | .Div l r => l.symbols ++ r.symbols
  | .Pow l r => l.symbols ++ r.symbols
  | .Addf _ r => r.symbols
  | .Subf l _ => l.symbols
  | .Mulf _ r => r.symbols
  | .Powf l _ => l.symbols
  | .Powi l _ => l.symbols
  | .Neg e => e.symbols
  | .Recip e => e.symbols
  | .Exp e => e.symbols
  | .Ln e => e.symbols
  | .Sin e => e.symbols
  | .Cos e => e.symbols
  | .Tan e => e.symbols
  | .Sinh e => e.symbols
  | .Cosh e => e.symbols
  | .Tanh e => e.symbols

/-- Appending one node whose operands already exist preserves the index
invariant. -/
theorem nodeInv_append_node {g g' : Graph α} {n : Node α} (hg : NodeInv g)
    (hn : g'.nodes = g.nodes ++ [n]) (hops : ∀ j ∈ n.operands, j < g.nodes.length) :
    NodeInv g' := by
  intro i j m hm hj
  rw [hn, List.getElem?_append] at hm
  by_cases hi : i < g.nodes.length
  · rw [if_pos hi] at hm
    exact hg i j m hm hj
  · rw [if_neg hi] at hm
    cases hk : i - g.nodes.length with
    | zero =>
      rw [hk] at hm
      simp only [List.getElem?_cons_zero, Option.some.injEq] at hm
      subst hm
      exact lt_of_lt_of_le (hops j hj) (Nat.not_lt.mp hi)
    | succ k =>
      rw [hk] at hm
      simp at hm

/-- Appending operand-free (`Var`) nodes preserves the index invariant. -/
theorem nodeInv_append_vars {g g' : Graph α} {ns : List (Node α)} (hg : NodeInv g)
    (hn : g'.nodes = g.nodes ++ ns) (hops : ∀ m ∈ ns, m.operands = []) :
    NodeInv g' := by
  intro i j m hm hj
  rw [hn, List.getElem?_append] at hm
  by_cases hi : i < g.nodes.length
  · rw [if_pos hi] at hm
    exact hg i j m hm hj
  · rw [if_neg hi] at hm
    rw [hops m (List.getElem?_mem hm)] at hj
    cases hj

/-- Lowering an expression whose symbols name existing tape indices
preserves the index invariant, only grows the node list, and returns an
in-range root index. -/
theorem parse_expr_ok [Zero α] :
    ∀ (e : Expr α) (g : Graph α), NodeInv g → (∀ s ∈ e.symbols, s < g.nodes.length) →
      NodeInv (parse_expr e g).2 ∧
      g.nodes.length ≤ (parse_expr e g).2.nodes.length ∧
      (parse_expr e g).1 < (parse_expr e g).2.nodes.length
  | .Symbol i, g => fun hg hs => ⟨hg, le_rfl, hs i (by simp [Expr.symbols])⟩
  | .Add l r, g => fun hg hs => by
    obtain ⟨h1, h2, h3⟩ := parse_expr_ok l g hg fun s hs' => hs s (List.mem_append_left _ hs')
    obtain ⟨k1, k2, k3⟩ := parse_expr_ok r (parse_expr l g).2 h1 fun s hs' =>
      lt_of_lt_of_le (hs s (List.mem_append_right _ hs')) h2
    rcases hp1 : parse_expr l g with ⟨i1, g1⟩
    rcases hp2 : parse_expr r g1 with ⟨i2, g2⟩
    rw [hp1] at h1 h2 h3 k1 k2 k3
    rw [hp2] at k1 k2 k3
    simp only [] at h1 h2 h3 k1 k2 k3
    simp only [parse_expr, hp1, hp2]
    refine ⟨nodeInv_append_node k1 rfl ?_, ?_, ?_⟩
    · intro j hj
      simp only [Node.operands, List.mem_cons, List.not_mem_nil, or_false] at hj
      rcases hj with rfl | rfl
      · exact lt_of_lt_of_le h3 k2
      · exact k3
    · simp only [Graph.add, Graph.pushNode, List.length_append, List.length_cons]
      omega
    · simp only [Graph.add, Graph.pushNode, List.length_append, List.length_cons]
      omega
  | .Sub l r, g => fun hg hs => by
    obtain ⟨h1, h2, h3⟩ := parse_expr_ok l g hg fun s hs' => hs s (List.mem_append_left _ hs')
    obtain ⟨k1, k2, k3⟩ := parse_expr_ok r (parse_expr l g).2 h1 fun s hs' =>
      lt_of_lt_of_le (hs s (List.mem_append_right _ hs')) h2
    rcases hp1 : parse_expr l g with ⟨i1, g1⟩
    rcases hp2 : parse_expr r g1 with ⟨i2, g2⟩
    rw [hp1] at h1 h2 h3 k1 k2 k3
    rw [hp2] at k1 k2 k3
    simp only [] at h1 h2 h3 k1 k2 k3
    simp only [parse_expr, hp1, hp2]
    refine ⟨nodeInv_append_node k1 rfl ?_, ?_, ?_⟩
    · intro j hj
      simp only [Node.operands, List.mem_cons, List.not_mem_nil, or_false] at hj
      rcases hj with rfl | rfl
      · exact lt_of_lt_of_le h3 k2
      · exact k3
    · simp only [Graph.sub, Graph.pushNode, List.length_append, List.length_cons]
      omega
    · simp only [Graph.sub, Graph.pushNode, List.length_append, List.length_cons]
      omega
  | .Mul l r, g => fun hg hs => by
    obtain ⟨h1, h2, h3⟩ := parse_expr_ok l g hg fun s hs' => hs s (List.mem_append_left _ hs')
    obtain ⟨k1, k2, k3⟩ := parse_expr_ok r (parse_expr l g).2 h1 fun s hs' =>
      lt_of_lt_of_le (hs s (List.mem_append_right _ hs')) h2
    rcases hp1 : parse_expr l g with ⟨i1, g1⟩
    rcases hp2 : parse_expr r g1 with ⟨i2, g2⟩
    rw [hp1] at h1 h2 h3 k1 k2 k3
    rw [hp2] at k1 k2 k3
    simp only [] at h1 h2 h3 k1 k2 k3
    simp only [parse_expr, hp1, hp2]
    refine ⟨nodeInv_append_node k1 rfl ?_, ?_, ?_⟩
    · intro j hj
      simp only [Node.operands, List.mem_cons, List.not_mem_nil, or_false] at hj
      rcases hj with rfl | rfl
      · exact lt_of_lt_of_le h3 k2
      · exact k3
    · simp only [Graph.mul, Graph.pushNode, List.length_append, List.length_cons]
      omega
    · simp only [Graph.mul, Graph.pushNode, List.length_append, List.length_cons]
      omega
  | .Div l r, g => fun hg hs => by
    obtain ⟨h1, h2, h3⟩ := parse_expr_ok l g hg fun s hs' => hs s (List.mem_append_left _ hs')
    obtain ⟨k1, k2, k3⟩ := parse_expr_ok r (parse_expr l g).2 h1 fun s hs' =>
      lt_of_lt_of_le (hs s (List.mem_append_right _ hs')) h2
    rcases hp1 : parse_expr l g with ⟨i1, g1⟩
    rcases hp2 : parse_expr r g1 with ⟨i2, g2⟩
    rw [hp1] at h1 h2 h3 k1 k2 k3
    rw [hp2] at k1 k2 k3
    simp only [] at h1 h2 h3 k1 k2 k3
    simp only [parse_expr, hp1, hp2]
    refine ⟨nodeInv_append_node k1 rfl ?_, ?_, ?_⟩
    · intro j hj
      simp only [Node.operands, List.mem_cons, List.not_mem_nil, or_false] at hj
      rcases hj with rfl | rfl
      · exact lt_of_lt_of_le h3 k2
      · exact k3
    · simp only [Graph.div, Graph.pushNode, List.length_append, List.length_cons]
      omega
    · simp only [Graph.div, Graph.pushNode, List.length_append, List.length_cons]
      omega
  | .Pow l r, g => fun hg hs => by
    obtain ⟨h1, h2, h3⟩ := parse_expr_ok l g hg fun s hs' => hs s (List.mem_append_left _ hs')
    obtain ⟨k1, k2, k3⟩ := parse_expr_ok r (parse_expr l g).2 h1 fun s hs' =>
      lt_of_lt_of_le (hs s (List.mem_append_right _ hs')) h2
    rcases hp1 : parse_expr l g with ⟨i1, g1⟩
    rcases hp2 : parse_expr r g1 with ⟨i2, g2⟩
    rw [hp1] at h1 h2 h3 k1 k2 k3
    rw [hp2] at k1 k2 k3
    simp only [] at h1 h2 h3 k1 k2 k3
    simp only [parse_expr, hp1, hp2]
    refine ⟨nodeInv_append_node k1 rfl ?_, ?_, ?_⟩
    · intro j hj
      simp only [Node.operands, List.mem_cons, List.not_mem_nil, or_false] at hj
      rcases hj with rfl | rfl
      · exact lt_of_lt_of_le h3 k2
      · exact k3
    · simp only [Graph.pow, Graph.pushNode, List.length_append, List.length_cons]
      omega
    · simp only [Graph.pow, Graph.pushNode, List.length_append, List.length_cons]
      omega
  | .Addf num sub, g => fun hg hs => by
    obtain ⟨h1, h2, h3⟩ := parse_expr_ok sub g hg fun s hs' => hs s hs'
    rcases hp1 : parse_expr sub g with ⟨i1, g1⟩
    rw [hp1] at h1 h2 h3
    simp only [] at h1 h2 h3
    simp only [parse_expr, hp1]
    refine ⟨nodeInv_append_node h1 rfl ?_, ?_, ?_⟩
    · intro j hj
      simp only [Node.operands, List.mem_cons, List.not_mem_nil, or_false] at hj
      subst hj
      exact h3
    · simp only [Graph.addf, Graph.pushNode, List.length_append, List.length_cons]
      omega
    · simp only [Graph.addf, Graph.pushNode, List.length_append, List.length_cons]
      omega
  | .Subf sub num, g => fun hg hs => by
    obtain ⟨h1, h2, h3⟩ := parse_expr_ok sub g hg fun s hs' => hs s hs'
    rcases hp1 : parse_expr sub g with ⟨i1, g1⟩
    rw [hp1] at h1 h2 h3
    simp only [] at h1 h2 h3
    simp only [parse_expr, hp1]
    refine ⟨nodeInv_append_node h1 rfl ?_, ?_, ?_⟩
    · intro j hj
      simp only [Node.operands, List.mem_cons, List.not_mem_nil, or_false] at hj
      subst hj
      exact h3
    · simp only [Graph.subf, Graph.pushNode, List.length_append, List.length_cons]
      omega
    · simp only [Graph.subf, Graph.pushNode, List.length_append, List.length_cons]
      omega
  | .Mulf num sub, g => fun hg hs => by
    obtain ⟨h1, h2, h3⟩ := parse_expr_ok sub g hg fun s hs' => hs s hs'
    rcases hp1 : parse_expr sub g with ⟨i1, g1⟩
    rw [hp1] at h1 h2 h3
    simp only [] at h1 h2 h3
    simp only [parse_expr, hp1]
    refine ⟨nodeInv_append_node h1 rfl ?_, ?_, ?_⟩
    · intro j hj
      simp only [Node.operands, List.mem_cons, List.not_mem_nil, or_false] at hj
      subst hj
      exact h3
    · simp only [Graph.mulf, Graph.pushNode, List.length_append, List.length_cons]
      omega
    · simp only [Graph.mulf, Graph.pushNode, List.length_append, List.length_cons]
      omega
  | .Powf sub num, g => fun hg hs => by
    obtain ⟨h1, h2, h3⟩ := parse_expr_ok sub g hg fun s hs' => hs s hs'
    rcases hp1 : parse_expr sub g with ⟨i1, g1⟩
    rw [hp1] at h1 h2 h3
    simp only [] at h1 h2 h3
    simp only [parse_expr, hp1]
    refine ⟨nodeInv_append_node h1 rfl ?_, ?_, ?_⟩
    · intro j hj
      simp only [Node.operands, List.mem_cons, List.not_mem_nil, or_false] at hj
      subst hj
      exact h3
    · simp only [Graph.powf, Graph.pushNode, List.length_append, List.length_cons]
      omega
    · simp only [Graph.powf, Graph.pushNode, List.length_append, List.length_cons]
      omega
  | .Powi sub num, g => fun hg hs => by
    obtain ⟨h1, h2, h3⟩ := parse_expr_ok sub g hg fun s hs' => hs s hs'
    rcases hp1 : parse_expr sub g with ⟨i1, g1⟩
    rw [hp1] at h1 h2 h3
    simp only [] at h1 h2 h3
    simp only [parse_expr, hp1]
    refine ⟨nodeInv_append_node h1 rfl ?_, ?_, ?_⟩
    · intro j hj
      simp only [Node.operands, List.mem_cons, List.not_mem_nil, or_false] at hj
      subst hj
      exact h3
    · simp only [Graph.powi, Graph.pushNode, List.length_append, List.length_cons]
      omega
    · simp only [Graph.powi, Graph.pushNode, List.length_append, List.length_cons]
      omega
  | .Neg sub, g => fun hg hs => by
    obtain ⟨h1, h2, h3⟩ := parse_expr_ok sub g hg fun s hs' => hs s hs'
    rcases hp1 : parse_expr sub g with ⟨i1, g1⟩
    rw [hp1] at h1 h2 h3
    simp only [] at h1 h2 h3
    simp only [parse_expr, hp1]
    refine ⟨nodeInv_append_node h1 rfl ?_, ?_, ?_⟩
    · intro j hj
      simp only [Node.operands, List.mem_cons, List.not_mem_nil, or_false] at hj
      subst hj
      exact h3
    · simp only [Graph.neg, Graph.pushNode, List.length_append, List.length_cons]
      omega
    · simp only [Graph.neg, Graph.pushNode, List.length_append, List.length_cons]
      omega
  | .Recip sub, g => fun hg hs => by
    obtain ⟨h1, h2, h3⟩ := parse_expr_ok sub g hg fun s hs' => hs s hs'
    rcases hp1 : parse_expr sub g with ⟨i1, g1⟩
    rw [hp1] at h1 h2 h3
    simp only [] at h1 h2 h3
    simp only [parse_expr, hp1]
    refine ⟨nodeInv_append_node h1 rfl ?_, ?_, ?_⟩
    · intro j hj
      simp only [Node.operands, List.mem_cons, List.not_mem_nil, or_false] at hj
      subst hj
      exact h3
    · simp only [Graph.recip, Graph.pushNode, List.length_append, List.length_cons]
      omega
    · simp only [Graph.recip, Graph.pushNode, List.length_append, List.length_cons]
      omega
  | .Exp sub, g => fun hg hs => by
    obtain ⟨h1, h2, h3⟩ := parse_expr_ok sub g hg fun s hs' => hs s hs'
    rcases hp1 : parse_expr sub g with ⟨i1, g1⟩
    rw [hp1] at h1 h2 h3
    simp only [] at h1 h2 h3
    simp only [parse_expr, hp1]
    refine ⟨nodeInv_append_node h1 rfl ?_, ?_, ?_⟩
    · intro j hj
      simp only [Node.operands, List.mem_cons, List.not_mem_nil, or_false] at hj
      subst hj
      exact h3
    · simp only [Graph.exp, Graph.pushNode, List.length_append, List.length_cons]
      omega
    · simp only [Graph.exp, Graph.pushNode, List.length_append, List.length_cons]
      omega
  | .Ln sub, g => fun hg hs => by
    obtain ⟨h1, h2, h3⟩ := parse_expr_ok sub g hg fun s hs' => hs s hs'
    rcases hp1 : parse_expr sub g with ⟨i1, g1⟩
    rw [hp1] at h1 h2 h3
    simp only [] at h1 h2 h3
    simp only [parse_expr, hp1]
    refine ⟨nodeInv_append_node h1 rfl ?_, ?_, ?_⟩
    · intro j hj
      simp only [Node.operands, List.mem_cons, List.not_mem_nil, or_false] at hj
      subst hj
      exact h3
    · simp only [Graph.ln, Graph.pushNode, List.length_append, List.length_cons]
      omega
    · simp only [Graph.ln, Graph.pushNode, List.length_append, List.length_cons]
      omega
  | .Sin sub, g => fun hg hs => by
    obtain ⟨h1, h2, h3⟩ := parse_expr_ok sub g hg fun s hs' => hs s hs'
    rcases hp1 : parse_expr sub g with ⟨i1, g1⟩
    rw [hp1] at h1 h2 h3
    simp only [] at h1 h2 h3
    simp only [parse_expr, hp1]
    refine ⟨nodeInv_append_node h1 rfl ?_, ?_, ?_⟩
    · intro j hj
      simp only [Node.operands, List.mem_cons, List.not_mem_nil, or_false] at hj
      subst hj
      exact h3
    · simp only [Graph.sin, Graph.pushNode, List.length_append, List.length_cons]
      omega
    · simp only [Graph.sin, Graph.pushNode, List.length_append, List.length_cons]
      omega
  | .Cos sub, g => fun hg hs => by
    obtain ⟨h1, h2, h3⟩ := parse_expr_ok sub g hg fun s hs' => hs s hs'
    rcases hp1 : parse_expr sub g with ⟨i1, g1⟩
    rw [hp1] at h1 h2 h3
    simp only [] at h1 h2 h3
    simp only [parse_expr, hp1]
    refine ⟨nodeInv_append_node h1 rfl ?_, ?_, ?_⟩
    · intro j hj
      simp only [Node.operands, List.mem_cons, List.not_mem_nil, or_false] at hj
      subst hj
      exact h3
    · simp only [Graph.cos, Graph.pushNode, List.length_append, List.length_cons]
      omega
    · simp only [Graph.cos, Graph.pushNode, List.length_append, List.length_cons]
      omega
  | .Tan sub, g => fun hg hs => by
    obtain ⟨h1, h2, h3⟩ := parse_expr_ok sub g hg fun s hs' => hs s hs'
    rcases hp1 : parse_expr sub g with ⟨i1, g1⟩
    rw [hp1] at h1 h2 h3
    simp only [] at h1 h2 h3
    simp only [parse_expr, hp1]
    refine ⟨nodeInv_append_node h1 rfl ?_, ?_, ?_⟩
    · intro j hj
      simp only [Node.operands, List.mem_cons, List.not_mem_nil, or_false] at hj
      subst hj
      exact h3
    · simp only [Graph.tan, Graph.pushNode, List.length_append, List.length_cons]
      omega
    · simp only [Graph.tan, Graph.pushNode, List.length_append, List.length_cons]
      omega
  | .Sinh sub, g => fun hg hs => by
    obtain ⟨h1, h2, h3⟩ := parse_expr_ok sub g hg fun s hs' => hs s hs'
    rcases hp1 : parse_expr sub g with ⟨i1, g1⟩
    rw [hp1] at h1 h2 h3
    simp only [] at h1 h2 h3
    simp only [parse_expr, hp1]
    refine ⟨nodeInv_append_node h1 rfl ?_, ?_, ?_⟩
    · intro j hj
      simp only [Node.operands, List.mem_cons, List.not_mem_nil, or_false] at hj
      subst hj
      exact h3
    · simp only [Graph.sinh, Graph.pushNode, List.length_append, List.length_cons]
      omega
    · simp only [Graph.sinh, Graph.pushNode, List.length_append, List.length_cons]
      omega
  | .Cosh sub, g => fun hg hs => by
    obtain ⟨h1, h2, h3⟩ := parse_expr_ok sub g hg fun s hs' => hs s hs'
    rcases hp1 : parse_expr sub g with ⟨i1, g1⟩
    rw [hp1] at h1 h2 h3
    simp only [] at h1 h2 h3
    simp only [parse_expr, hp1]
    refine ⟨nodeInv_append_node h1 rfl ?_, ?_, ?_⟩
    · intro j hj
      simp only [Node.operands, List.mem_cons, List.not_mem_nil, or_false] at hj
      subst hj
      exact h3
    · simp only [Graph.cosh, Graph.pushNode, List.length_append, List.length_cons]
      omega
    · simp only [Graph.cosh, Graph.pushNode, List.length_append, List.length_cons]
      omega
  | .Tanh sub, g => fun hg hs => by
    obtain ⟨h1, h2, h3⟩ := parse_expr_ok sub g hg fun s hs' => hs s hs'
    rcases hp1 : parse_expr sub g with ⟨i1, g1⟩
    rw [hp1] at h1 h2 h3
    simp only [] at h1 h2 h3
    simp only [parse_expr, hp1]
    refine ⟨nodeInv_append_node h1 rfl ?_, ?_, ?_⟩
    · intro j hj
      simp only [Node.operands, List.mem_cons, List.not_mem_nil, or_false] at hj
      subst hj
      exact h3
    · simp only [Graph.tanh, Graph.pushNode, List.length_append, List.length_cons]
      omega
    · simp only [Graph.tanh, Graph.pushNode, List.length_append, List.length_cons]
      omega

/-- The tapes reachable by the constructors of §4.1: `var` / `touch_vars`,
the per-operation constructors applied to already-existing operand indices,
and `compile` of expressions whose symbols name already-existing indices. -/
inductive Built [Zero α] : Graph α → Prop where
  | empty : Built (Graph.empty α)
  | var {g : Graph α} (v : α) : Built g → Built (g.var v).2
  | touch_vars {g : Graph α} (n : Nat) : Built g → Built (g.touch_vars n)
  | add {g : Graph α} {l r : Nat} : Built g → l < g.nodes.length →
      r < g.nodes.length → Built (g.add l r).2
  | sub {g : Graph α} {l r : Nat} : Built g → l < g.nodes.length →
      r < g.nodes.length → Built (g.sub l r).2
  | mul {g : Graph α} {l r : Nat} : Built g → l < g.nodes.length →
      r < g.nodes.length → Built (g.mul l r).2
  | div {g : Graph α} {l r : Nat} : Built g → l < g.nodes.length →
      r < g.nodes.length → Built (g.div l r).2
  | pow {g : Graph α} {l r : Nat} : Built g → l < g.nodes.length →
      r < g.nodes.length → Built (g.pow l r).2
  | addf {g : Graph α} (num : α) {r : Nat} : Built g → r < g.nodes.length →
      Built (g.addf num r).2
  | subf {g : Graph α} {l : Nat} (num : α) : Built g → l < g.nodes.length →
      Built (g.subf l num).2
  | mulf {g : Graph α} (num : α) {r : Nat} : Built g → r < g.nodes.length →
      Built (g.mulf num r).2
  | powf {g : Graph α} {o : Nat} (power : α) : Built g → o < g.nodes.length →
      Built (g.powf o power).2
  | powi {g : Graph α} {o : Nat} (power : Int) : Built g → o < g.nodes.length →
      Built (g.powi o power).2
  | neg {g : Graph α} {o : Nat} : Built g → o < g.nodes.length →
      Built (g.neg o).2
  | recip {g : Graph α} {o : Nat} : Built g → o < g.nodes.length →
      Built (g.recip o).2
  | exp {g : Graph α} {o : Nat} : Built g → o < g.nodes.length →
      Built (g.exp o).2
  | ln {g : Graph α} {o : Nat} : Built g → o < g.nodes.length →
      Built (g.ln o).2
  | sin {g : Graph α} {o : Nat} : Built g → o < g.nodes.length →
      Built (g.sin o).2
  | cos {g : Graph α} {o : Nat} : Built g → o < g.nodes.length →
      Built (g.cos o).2
  | tan {g : Graph α} {o : Nat} : Built g → o < g.nodes.length →
      Built (g.tan o).2
  | sinh {g : Graph α} {o : Nat} : Built g → o < g.nodes.length →
      Built (g.sinh o).2
  | cosh {g : Graph α} {o : Nat} : Built g → o < g.nodes.length →
      Built (g.cosh o).2
  | tanh {g : Graph α} {o : Nat} : Built g → o < g.nodes.length →
      Built (g.tanh o).2
  | compile {g : Graph α} {e : Expr α} : Built g →
      (∀ s ∈ e.symbols, s < g.nodes.length) → Built (g.compile e)

/-- Every tape built through the §4.1 constructors satisfies the §3 index
invariant: a node at index `i` references only operand indices `< i`. -/
theorem Built.nodeInv [Zero α] {g : Graph α} (h : Built g) : NodeInv g := by
  induction h with
  | empty => intro i j n hn hm; simp [Graph.empty] at hn
  | var v _ ih => exact nodeInv_append_vars ih rfl (by intro m hm; simp at hm; subst hm; rfl)
  | touch_vars n _ ih =>
    refine nodeInv_append_vars ih rfl ?_
    intro m hm
    simp only [List.mem_map, List.mem_range] at hm
    obtain ⟨k, _, rfl⟩ := hm
    rfl
  | compile _ hs ih => exact ((parse_expr_ok _ _ ih hs).1).of_nodes_eq rfl
  | add _ hl hr ih =>
    refine nodeInv_append_node ih rfl ?_
    intro j hj
    simp only [Node.operands, List.mem_cons, List.not_mem_nil, or_false] at hj
    rcases hj with rfl | rfl
    · exact hl
    · exact hr
  | sub _ hl hr ih =>
    refine nodeInv_append_node ih rfl ?_
    intro j hj
    simp only [Node.operands, List.mem_cons, List.not_mem_nil, or_false] at hj
    rcases hj with rfl | rfl
    · exact hl
    · exact hr
  | mul _ hl hr ih =>
    refine nodeInv_append_node ih rfl ?_
    intro j hj
    simp only [Node.operands, List.mem_cons, List.not_mem_nil, or_false] at hj
    rcases hj with rfl | rfl
    · exact hl
    · exact hr
  | div _ hl hr ih =>
    refine nodeInv_append_node ih rfl ?_
    intro j hj
    simp only [Node.operands, List.mem_cons, List.not_mem_nil, or_false] at hj
    rcases hj with rfl | rfl
    · exact hl
    · exact hr
  | pow _ hl hr ih =>
    refine nodeInv_append_node ih rfl ?_
    intro j hj
    simp only [Node.operands, List.mem_cons, List.not_mem_nil, or_false] at hj
    rcases hj with rfl | rfl
    · exact hl
    · exact hr
  | addf num _ ho ih =>
    refine nodeInv_append_node ih rfl ?_
    intro j hj
    simp only [Node.operands, List.mem_cons, List.not_mem_nil, or_false] at hj
    subst hj
    exact ho
  | subf num _ ho ih =>
    refine nodeInv_append_node ih rfl ?_
    intro j hj
    simp only [Node.operands, List.mem_cons, List.not_mem_nil, or_false] at hj
    subst hj
    exact ho
  | mulf num _ ho ih =>
    refine nodeInv_append_node ih rfl ?_
    intro j hj
    simp only [Node.operands, List.mem_cons, List.not_mem_nil, or_false] at hj
    subst hj
    exact ho
  | powf power _ ho ih =>
    refine nodeInv_append_node ih rfl ?_
    intro j hj
    simp only [Node.operands, List.mem_cons, List.not_mem_nil, or_false] at hj
    subst hj
    exact ho
  | powi power _ ho ih =>
    refine nodeInv_append_node ih rfl ?_
    intro j hj
    simp only [Node.operands, List.mem_cons, List.not_mem_nil, or_false] at hj
    subst hj
    exact ho
  | neg  _ ho ih =>
    refine nodeInv_append_node ih rfl ?_
    intro j hj
    simp only [Node.operands, List.mem_cons, List.not_mem_nil, or_false] at hj
    subst hj
    exact ho
  | recip  _ ho ih =>
    refine nodeInv_append_node ih rfl ?_
    intro j hj
    simp only [Node.operands, List.mem_cons, List.not_mem_nil, or_false] at hj
    subst hj
    exact ho
  | exp  _ ho ih =>
    refine nodeInv_append_node ih rfl ?_
    intro j hj
    simp only [Node.operands, List.mem_cons, List.not_mem_nil, or_false] at hj
    subst hj
    exact ho
  | ln  _ ho ih =>
    refine nodeInv_append_node ih rfl ?_
    intro j hj
    simp only [Node.operands, List.mem_cons, List.not_mem_nil, or_false] at hj
    subst hj
    exact ho
  | sin  _ ho ih =>
    refine nodeInv_append_node ih rfl ?_
    intro j hj
    simp only [Node.operands, List.mem_cons, List.not_mem_nil, or_false] at hj
    subst hj
    exact ho
  | cos  _ ho ih =>
    refine nodeInv_append_node ih rfl ?_
    intro j hj
    simp only [Node.operands, List.mem_cons, List.not_mem_nil, or_false] at hj
    subst hj
    exact ho
  | tan  _ ho ih =>
    refine nodeInv_append_node ih rfl ?_
    intro j hj
    simp only [Node.operands, List.mem_cons, List.not_mem_nil, or_false] at hj
    subst hj
    exact ho
  | sinh  _ ho ih =>
    refine nodeInv_append_node ih rfl ?_
    intro j hj
    simp only [Node.operands, List.mem_cons, List.not_mem_nil, or_false] at hj
    subst hj
    exact ho
  | cosh  _ ho ih =>
    refine nodeInv_append_node ih rfl ?_
    intro j hj
    simp only [Node.operands, List.mem_cons, List.not_mem_nil, or_false] at hj
    subst hj
    exact ho
  | tanh  _ ho ih =>
    refine nodeInv_append_node ih rfl ?_
    intro j hj
    simp only [Node.operands, List.mem_cons, List.not_mem_nil, or_false] at hj
    subst hj
    exact ho


theorem Graph.ext' {g g' : Graph α} (h1 : g.gradients = g'.gradients)
    (h2 : g.buffer = g'.buffer) (h3 : g.nodes = g'.nodes)
    (h4 : g.value_ics = g'.value_ics) (h5 : g.compiled = g'.compiled) : g = g' := by
  cases g; cases g'; simp_all

/-- `parse_expr` touches the tape only through the node-appending
constructors, so it preserves every property those preserve. -/
theorem parse_expr_preserves [Zero α] (P : Graph α → Prop)
    (hpush : ∀ (g : Graph α) (n : Node α), P g → P (g.pushNode n).2) :
    ∀ (e : Expr α) (g : Graph α), P g → P (parse_expr e g).2
  | .Symbol _, _, hp => hp
  | .Add l r, g, hp =>
    hpush _ _ (parse_expr_preserves P hpush r _ (parse_expr_preserves P hpush l g hp))
  | .Sub l r, g, hp =>
    hpush _ _ (parse_expr_preserves P hpush r _ (parse_expr_preserves P hpush l g hp))
  | .Mul l r, g, hp =>
    hpush _ _ (parse_expr_preserves P hpush r _ (parse_expr_preserves P hpush l g hp))
  | .Div l r, g, hp =>
    hpush _ _ (parse_expr_preserves P hpush r _ (parse_expr_preserves P hpush l g hp))
  | .Pow l r, g, hp =>
    hpush _ _ (parse_expr_preserves P hpush r _ (parse_expr_preserves P hpush l g hp))
  | .Addf _ r, g, hp => hpush _ _ (parse_expr_preserves P hpush r g hp)
  | .Subf l _, g, hp => hpush _ _ (parse_expr_preserves P hpush l g hp)
  | .Mulf _ r, g, hp => hpush _ _ (parse_expr_preserves P hpush r g hp)
  | .Powf l _, g, hp => hpush _ _ (parse_expr_preserves P hpush l g hp)
  | .Powi l _, g, hp => hpush _ _ (parse_expr_preserves P hpush l g hp)
  | .Neg e, g, hp => hpush _ _ (parse_expr_preserves P hpush e g hp)
  | .Recip e, g, hp => hpush _ _ (parse_expr_preserves P hpush e g hp)
  | .Exp e, g, hp => hpush _ _ (parse_expr_preserves P hpush e g hp)
  | .Ln e, g, hp => hpush _ _ (parse_expr_preserves P hpush e g hp)
  | .Sin e, g, hp => hpush _ _ (parse_expr_preserves P hpush e g hp)
  | .Cos e, g, hp => hpush _ _ (parse_expr_preserves P hpush e g hp)
  | .Tan e, g, hp => hpush _ _ (parse_expr_preserves P hpush e g hp)
  | .Sinh e, g, hp => hpush _ _ (parse_expr_preserves P hpush e g hp)
  | .Cosh e, g, hp => hpush _ _ (parse_expr_preserves P hpush e g hp)
  | .Tanh e, g, hp => hpush _ _ (parse_expr_preserves P hpush e g hp)

/-- The state of a tape on which only construction (variable declaration
and node appends) has happened: parallel lengths, all gradients zero, and
every non-variable value slot unknown. -/
structure FreshState [Zero α] (g : Graph α) : Prop where
  len_eq : g.gradients.length = g.buffer.length
  grad_zero : ∀ j, j < g.gradients.length → g.gradients[j]? = some (0:α)
  nonvar_none : ∀ j, j < g.buffer.length → j ∉ g.value_ics → g.buffer[j]? = some none

theorem FreshState.empty [Zero α] : FreshState (Graph.empty α) :=
  ⟨rfl, by intro j hj; simp [Graph.empty] at hj, by intro j hj _; simp [Graph.empty] at hj⟩

theorem FreshState.var [Zero α] {g : Graph α} (h : FreshState g) (v : α) :
    FreshState (g.var v).2 := by
  obtain ⟨hl, hg, hb⟩ := h
  have hbuf : (g.var v).2.buffer = g.buffer ++ [some v] := rfl
  have hgr : (g.var v).2.gradients = g.gradients ++ [(0:α)] := rfl
  have hics : (g.var v).2.value_ics = g.value_ics ++ [g.buffer.length] := rfl
  refine ⟨?_, ?_, ?_⟩
  · rw [hbuf, hgr]
    simp [hl]
  · intro j hj
    rw [hgr] at hj ⊢
    simp only [List.length_append, List.length_cons, List.length_nil] at hj
    rw [List.getElem?_append]
    rcases Nat.lt_or_ge j g.gradients.length with hlt | hge
    · rw [if_pos hlt]
      exact hg j hlt
    · rw [if_neg (Nat.not_lt.mpr hge)]
      have hje : j - g.gradients.length = 0 := by omega
      rw [hje]
      rfl
  · intro j hj hnv
    rw [hbuf] at hj ⊢
    rw [hics] at hnv
    simp only [List.length_append, List.length_cons, List.length_nil] at hj
    rcases Nat.lt_or_ge j g.buffer.length with hlt | hge
    · rw [List.getElem?_append, if_pos hlt]
      exact hb j hlt fun hmem => hnv (List.mem_append_left _ hmem)
    · have hje : j = g.buffer.length := by omega
      exact absurd (List.mem_append_right _ (by simp [hje])) hnv

theorem FreshState.pushNode [Zero α] {g : Graph α} (h : FreshState g) (n : Node α) :
    FreshState (g.pushNode n).2 := by
  obtain ⟨hl, hg, hb⟩ := h
  have hbuf : (g.pushNode n).2.buffer = g.buffer ++ [none] := rfl
  have hgr : (g.pushNode n).2.gradients = g.gradients ++ [(0:α)] := rfl
  refine ⟨?_, ?_, ?_⟩
  · rw [hbuf, hgr]
    simp [hl]
  · intro j hj
    rw [hgr] at hj ⊢
    simp only [List.length_append, List.length_cons, List.length_nil] at hj
    rw [List.getElem?_append]
    rcases Nat.lt_or_ge j g.gradients.length with hlt | hge
    · rw [if_pos hlt]
      exact hg j hlt
    · rw [if_neg (Nat.not_lt.mpr hge)]
      have hje : j - g.gradients.length = 0 := by omega
      rw [hje]
      rfl
  · intro j hj hnv
    rw [hbuf] at hj ⊢
    simp only [List.length_append, List.length_cons, List.length_nil] at hj
    rw [List.getElem?_append]
    rcases Nat.lt_or_ge j g.buffer.length with hlt | hge
    · rw [if_pos hlt]
      exact hb j hlt hnv
    · rw [if_neg (Nat.not_lt.mpr hge)]
      have hje : j - g.buffer.length = 0 := by omega
      rw [hje]
      rfl

theorem FreshState.parse_expr [Zero α] {g : Graph α} (h : FreshState g) (e : Expr α) :
    FreshState (parse_expr e g).2 :=
  parse_expr_preserves FreshState (fun _ n hp => hp.pushNode n) e g h

theorem FreshState.compile [Zero α] {g : Graph α} (h : FreshState g) (e : Expr α) :
    FreshState (g.compile e) := by
  obtain ⟨hl, hg, hb⟩ := h.parse_expr e
  exact ⟨hl, hg, hb⟩

/-- The fresh tape of §8.3: declare one bound variable per input value,
then compile the expression. -/
def freshTape [Zero α] (vals : List α) (e : Expr α) : Graph α :=
  (vals.foldl (fun g v => (Graph.var g v).2) (Graph.empty α)).compile e

/-- Modelled from the spec (§8.3, the comparison side of the reuse
property): build a fresh tape with the same variables and the same compiled
expression, bind the same input values, run forward then backward, and
return the value and gradient vector. -/
def freshRun [Field α] (ops : ScalarOps α) (fuel : Nat) (vals : List α) (e : Expr α)
    (x : List α) : Except EvalErr (α × List α) :=
  match (freshTape vals e).subs_vars x with
  | none => .error .assertFail
  | some g1 => do
    let (result, g2) ← g1.forward ops fuel
    let g3 ← g2.backward ops fuel
    pure (result, g3.get_gradients)

theorem FreshState.buildVars [Zero α] (vals : List α) :
    FreshState (vals.foldl (fun g v => (Graph.var g v).2) (Graph.empty α)) := by
  suffices h : ∀ (g : Graph α), FreshState g →
      FreshState (vals.foldl (fun g v => (Graph.var g v).2) g) from
    h _ FreshState.empty
  induction vals with
  | nil => exact fun _ hg => hg
  | cons v vs ih => exact fun g hg => ih _ (hg.var v)

theorem FreshState.freshTape [Zero α] (vals : List α) (e : Expr α) :
    FreshState (freshTape vals e) :=
  (FreshState.buildVars vals).compile e

/-- Resetting a tape in fresh state changes nothing. -/
theorem reset_of_freshState [Zero α] {g : Graph α} (h : FreshState g) : g.reset = g := by
  refine Graph.ext' ?_ ?_ rfl rfl rfl
  · refine List.ext_getElem? fun j => ?_
    rcases Nat.lt_or_ge j g.gradients.length with hlt | hge
    · rw [reset_gradients_getElem g h.len_eq j hlt, h.grad_zero j hlt]
    · rw [List.getElem?_eq_none, List.getElem?_eq_none hge]
      rw [reset_gradients_length]
      exact hge
  · refine List.ext_getElem? fun j => ?_
    rw [reset_buffer_getElem]
    by_cases hc : j < g.buffer.length ∧ j ∉ g.value_ics
    · rw [if_pos hc, h.nonvar_none j hc.1 hc.2]
    · rw [if_neg hc]

/-- `reset` depends only on the tape structure and the variable-slot
contents: two tapes agreeing there reset to the same state. -/
theorem reset_congr [Zero α] {g h : Graph α}
    (hn : g.nodes = h.nodes) (hv : g.value_ics = h.value_ics)
    (hc : g.compiled = h.compiled) (hbl : g.buffer.length = h.buffer.length)
    (hgl : g.gradients.length = h.gradients.length)
    (hglen : g.gradients.length = g.buffer.length)
    (hvals : ∀ i ∈ g.value_ics, g.buffer[i]? = h.buffer[i]?) :
    g.reset = h.reset := by
  refine Graph.ext' ?_ ?_ (by rw [reset_nodes, reset_nodes, hn])
    (by rw [reset_value_ics, reset_value_ics, hv])
    (by rw [reset_compiled, reset_compiled, hc])
  · refine List.ext_getElem? fun j => ?_
    rcases Nat.lt_or_ge j g.gradients.length with hlt | hge
    · rw [reset_gradients_getElem g hglen j hlt,
        reset_gradients_getElem h (by omega) j (by omega)]
    · rw [List.getElem?_eq_none, List.getElem?_eq_none]
      · rw [reset_gradients_length]; omega
      · rw [reset_gradients_length]; omega
  · refine List.ext_getElem? fun j => ?_
    rw [reset_buffer_getElem, reset_buffer_getElem, ← hv, ← hbl]
    by_cases hcj : j < g.buffer.length ∧ j ∉ g.value_ics
    · rw [if_pos hcj, if_pos hcj]
    · rw [if_neg hcj, if_neg hcj]
      by_cases hmem : j ∈ g.value_ics
      · exact hvals j hmem
      · have : ¬ j < g.buffer.length := fun hlt => hcj ⟨hlt, hmem⟩
        rw [List.getElem?_eq_none (by omega), List.getElem?_eq_none (by omega)]


/-- Fueled witness that the sub-dag below tape index `i` is fully
evaluated: every operand reachable from `i` has a memoized value, and every
`Var` reached addresses an in-range gradient slot.  In this state the
backward pass's internal forward calls are pure memo hits. -/
def evald [Zero α] : Nat → Graph α → Nat → Prop
  | 0, _, _ => False
  | fuel+1, g, i =>
    ∃ n, g.nodes[i]? = some n ∧
      match n with
      | .Var vi => vi < g.gradients.length
      | n => ∀ j ∈ n.operands, (∃ v, g.buffer[j]? = some (some v)) ∧ evald fuel g j

theorem evald_mono [Zero α] :
    ∀ {fuel fuel' : Nat} {g : Graph α} {i : Nat}, fuel ≤ fuel' →
      evald fuel g i → evald fuel' g i
  | 0, _, _, _, _, hf => absurd hf (by simp [evald])
  | fuel+1, fuel'+1, g, i, hle, hf => by
    obtain ⟨n, hn, hp⟩ := hf
    refine ⟨n, hn, ?_⟩
    cases n <;>
      first
      | exact hp
      | exact fun j hj => ⟨(hp j hj).1,
          evald_mono (Nat.succ_le_succ_iff.mp hle) (hp j hj).2⟩
  | fuel+1, 0, g, i, hle, hf => absurd hle (by omega)

/-- `evald` only looks at the node list, the memoized entries of the value
buffer, and the gradient-buffer length; extending the memo table keeps it. -/
theorem evald_extend [Zero α] :
    ∀ {fuel : Nat} {g g' : Graph α} {i : Nat},
      g'.nodes = g.nodes →
      (∀ (j : Nat) (w : α), g.buffer[j]? = some (some w) → g'.buffer[j]? = some (some w)) →
      g'.gradients.length = g.gradients.length →
      evald fuel g i → evald fuel g' i
  | 0, _, _, _, _, _, _, hf => absurd hf (by simp [evald])
  | fuel+1, g, g', i, hn, hb, hl, hf => by
    obtain ⟨n, hni, hp⟩ := hf
    refine ⟨n, by rw [hn]; exact hni, ?_⟩
    cases n <;>
      first
      | (rw [hl]; exact hp)
      | exact fun j hj => ⟨⟨(hp j hj).1.choose, hb j _ (hp j hj).1.choose_spec⟩,
          evald_extend hn hb hl (hp j hj).2⟩

/-- With the §3 index invariant, `evald` is independent of the fuel as soon
as the fuel exceeds the index: the derivation height is bounded by the
index itself. -/
theorem evald_fuel_free [Zero α] {g : Graph α} (hinv : NodeInv g) :
    ∀ (i : Nat), (∃ f, evald f g i) → ∀ f', i < f' → evald f' g i := by
  intro i
  induction i using Nat.strong_induction_on with
  | _ i IH =>
    rintro ⟨f, hf⟩ f' hf'
    cases f with
    | zero => cases hf
    | succ F =>
      obtain ⟨n, hn, hp⟩ := hf
      cases f' with
      | zero => omega
      | succ F' =>
        refine ⟨n, hn, ?_⟩
        cases n <;>
          first
          | exact hp
          | exact fun j hj => ⟨(hp j hj).1,
              IH j (hinv i j _ hn hj) ⟨F, (hp j hj).2⟩ F'
                (by have := hinv i j _ hn hj; omega)⟩

/-- A memo hit: `forward_step` on an already-evaluated index returns the
cached value and leaves the state untouched. -/
theorem forwardStep_memo [Field α] (ops : ScalarOps α) {fuel : Nat} {g : Graph α}
    {l : Nat} {lv : α} (hf : 0 < fuel) (hb : g.buffer[l]? = some (some lv)) :
    forwardStep ops fuel g l = .ok (lv, g) := by
  cases fuel with
  | zero => omega
  | succ f =>
    rw [forwardStep, hb]

/-- The gradient update of the `Var` arm, as a pointwise delta. -/
theorem getD_set_add [Field α] (l : List α) {vi : Nat} (hvi : vi < l.length)
    (w : α) (j : Nat) :
    (l.set vi (l.getD vi 0 + w)).getD j 0 - l.getD j 0 = if j = vi then w else 0 := by
  rcases eq_or_ne j vi with rfl | hne
  · rw [if_pos rfl, List.getD_eq_getElem?_getD, List.getElem?_set_self hvi,
      List.getD_eq_getElem?_getD]
    simp
  · rw [if_neg hne, List.getD_eq_getElem?_getD, List.getElem?_set_ne (Ne.symm hne),
      ← List.getD_eq_getElem?_getD, sub_self]


/-- Tape index `j` carries a `Var` node addressing an in-range gradient
slot. -/
def VarSlot [Zero α] (g : Graph α) (j : Nat) : Prop :=
  match g.nodes[j]? with
  | some (.Var vi) => vi < g.gradients.length
  | _ => False

theorem VarSlot.congr [Zero α] {g g' : Graph α} {j : Nat}
    (hn : g'.nodes = g.nodes) (hl : g'.gradients.length = g.gradients.length)
    (h : VarSlot g j) : VarSlot g' j := by
  simp only [VarSlot] at h ⊢
  rw [hn, hl]
  exact h

/-- Every memoized value slot is either a bound variable slot or a fully
evaluated sub-dag.  This holds after a reset of a well-formed tape (only
variable slots are bound) and is maintained by the forward pass. -/
def PreGood [Zero α] (g : Graph α) : Prop :=
  ∀ (j : Nat) (w : α), g.buffer[j]? = some (some w) → VarSlot g j ∨ ∃ f, evald f g j

/-- Under the §3 index invariant, `forward_step` at index `i` writes no
value slot above `i`. -/
theorem forwardStep_writes_le [Field α] (ops : ScalarOps α) :
    ∀ (fuel : Nat) (g : Graph α) (i : Nat) (v : α) (g' : Graph α),
      forwardStep ops fuel g i = .ok (v, g') → NodeInv g →
      ∀ j, i < j → g'.buffer[j]? = g.buffer[j]?
  | 0, g, i, v, g', h => by simp [forwardStep] at h
  | fuel+1, g, i, v, g', h => by
    rw [forwardStep] at h
    cases hb : g.buffer[i]? with
    | none => rw [hb] at h; exact absurd h (by simp)
    | some ob =>
      cases ob with
      | some w =>
        rw [hb] at h
        simp only [Except.ok.injEq, Prod.mk.injEq] at h
        obtain ⟨rfl, rfl⟩ := h
        exact fun _ j hij => rfl
      | none =>
        rw [hb] at h
        cases hn : g.nodes[i]? with
        | none => rw [hn] at h; exact absurd h (by simp)
        | some node =>
          rw [hn] at h
          intro hinv
          have hbound : ∀ j ∈ node.operands, j < i := fun j hj => hinv i j _ hn hj
          cases node
          all_goals
            first
            | (rw [except_bind_ok_iff] at h
               obtain ⟨⟨res, gx⟩, hinner, houter⟩ := h
               rw [except_bind_ok_iff] at hinner
               obtain ⟨⟨lv, g1⟩, hl, hinner⟩ := hinner
               rw [except_bind_ok_iff] at hinner
               obtain ⟨⟨rv, g2⟩, hr, hinner⟩ := hinner
               simp only [except_pure, Except.ok.injEq, Prod.mk.injEq] at hinner houter
               obtain ⟨rfl, rfl⟩ := hinner
               obtain ⟨rfl, rfl⟩ := houter
               intro j hij
               rw [List.getElem?_set_ne (by omega),
                 forwardStep_writes_le ops fuel _ _ _ _ hr
                   (hinv.of_nodes_eq (forwardStep_ok ops fuel _ _ _ _ hl).1.1) j
                   (lt_trans (hbound _ (by simp [Node.operands])) hij),
                 forwardStep_writes_le ops fuel _ _ _ _ hl hinv j
                   (lt_trans (hbound _ (by simp [Node.operands])) hij)])
            | (rw [except_bind_ok_iff] at h
               obtain ⟨⟨res, gx⟩, hinner, houter⟩ := h
               rw [except_bind_ok_iff] at hinner
               obtain ⟨⟨ov, g1⟩, ho, hinner⟩ := hinner
               simp only [except_pure, Except.ok.injEq, Prod.mk.injEq] at hinner houter
               obtain ⟨rfl, rfl⟩ := hinner
               obtain ⟨rfl, rfl⟩ := houter
               intro j hij
               rw [List.getElem?_set_ne (by omega),
                 forwardStep_writes_le ops fuel _ _ _ _ ho hinv j
                   (lt_trans (hbound _ (by simp [Node.operands])) hij)])
            | simp [Bind.bind, Except.bind] at h


/-- Transport `evald` across the frame of a successful forward call. -/
theorem FwdFrame.evald_fwd_extend [Zero α] {g g' : Graph α} (h : FwdFrame g g')
    {f i : Nat} (he : evald f g i) : evald f g' i :=
  Revad.evald_extend h.1 h.2.2.2.2.2 (by rw [h.2.1]) he

/-- A successful `forward_step` call, from a state whose memoized slots are
variable slots or evaluated sub-dags, leaves its own index fully evaluated
(`evald`) and maintains that memo discipline. -/
theorem forwardStep_evald [Field α] (ops : ScalarOps α) :
    ∀ (fuel : Nat) (g : Graph α) (i : Nat) (v : α) (g' : Graph α),
      forwardStep ops fuel g i = .ok (v, g') → NodeInv g → PreGood g → i < fuel →
      evald fuel g' i ∧ PreGood g'
  | 0, g, i, v, g', h => by simp [forwardStep] at h
  | fuel+1, g, i, v, g', h => by
    rw [forwardStep] at h
    cases hb : g.buffer[i]? with
    | none => rw [hb] at h; exact absurd h (by simp)
    | some ob =>
      cases ob with
      | some w =>
        rw [hb] at h
        simp only [Except.ok.injEq, Prod.mk.injEq] at h
        obtain ⟨rfl, rfl⟩ := h
        intro hinv hpre hlt
        refine ⟨?_, hpre⟩
        rcases hpre i w hb with hvs | hev
        · simp only [VarSlot] at hvs
          cases hni : g.nodes[i]? with
          | none => rw [hni] at hvs; exact hvs.elim
          | some n =>
            rw [hni] at hvs
            cases n <;>
              first
              | exact ⟨_, hni, hvs⟩
              | exact hvs.elim
        · exact evald_fuel_free hinv i hev (fuel+1) hlt
      | none =>
        rw [hb] at h
        cases hn : g.nodes[i]? with
        | none => rw [hn] at h; exact absurd h (by simp)
        | some node =>
          rw [hn] at h
          intro hinv hpre hlt
          have hbound : ∀ j ∈ node.operands, j < i := fun j hj => hinv i j _ hn hj
          cases node
          all_goals
            first
            | (rw [except_bind_ok_iff] at h
               obtain ⟨⟨res, gx⟩, hinner, houter⟩ := h
               rw [except_bind_ok_iff] at hinner
               obtain ⟨⟨lv, g1⟩, hl, hinner⟩ := hinner
               rw [except_bind_ok_iff] at hinner
               obtain ⟨⟨rv, g2⟩, hr, hinner⟩ := hinner
               simp only [except_pure, Except.ok.injEq, Prod.mk.injEq] at hinner houter
               obtain ⟨hres, rfl⟩ := hinner
               obtain ⟨rfl, rfl⟩ := houter
               obtain ⟨hfr1, hm1⟩ := forwardStep_ok ops fuel _ _ _ _ hl
               obtain ⟨hfr2, hm2⟩ := forwardStep_ok ops fuel _ _ _ _ hr
               obtain ⟨hev1, hpre1⟩ := forwardStep_evald ops fuel _ _ _ _ hl hinv hpre
                 (lt_of_lt_of_le (hbound _ (by simp [Node.operands])) (Nat.lt_succ_iff.mp hlt))
               obtain ⟨hev2, hpre2⟩ := forwardStep_evald ops fuel _ _ _ _ hr
                 (hinv.of_nodes_eq hfr1.1) hpre1
                 (lt_of_lt_of_le (hbound _ (by simp [Node.operands])) (Nat.lt_succ_iff.mp hlt))
               have hi2 : g2.buffer[i]? = some none := by
                 rw [forwardStep_writes_le ops fuel _ _ _ _ hr (hinv.of_nodes_eq hfr1.1) i
                     (hbound _ (by simp [Node.operands])),
                   forwardStep_writes_le ops fuel _ _ _ _ hl hinv i
                     (hbound _ (by simp [Node.operands])), hb]
               have hpersist2 : ∀ (z : Option α) (j : Nat) (w : α),
                   g2.buffer[j]? = some (some w) → (g2.buffer.set i z)[j]? = some (some w) := by
                 intro z j w hjw
                 rcases eq_or_ne i j with rfl | hne
                 · rw [hi2] at hjw
                   simp at hjw
                 · rw [List.getElem?_set_ne hne]
                   exact hjw
               have hextstore : ∀ (f' j' : Nat), evald f' g2 j' →
                   evald f' { g2 with buffer := g2.buffer.set i (some res) } j' :=
                 fun f' j' hE => evald_extend
                   (show ({ g2 with buffer := g2.buffer.set i (some res) } : Graph α).nodes
                      = g2.nodes from rfl)
                   (fun j2 w2 hj2 => hpersist2 _ j2 w2 hj2)
                   (show ({ g2 with
                        buffer := g2.buffer.set i (some res) } : Graph α).gradients.length
                      = g2.gradients.length from rfl) hE
               have hn2 : g2.nodes[i]? = g.nodes[i]? := by rw [hfr2.1, hfr1.1]
               have hev' : evald (fuel+1) { g2 with buffer := g2.buffer.set i (some res) } i := by
                 refine ⟨_, hn2.trans hn, ?_⟩
                 intro j hj
                 simp only [Node.operands, List.mem_cons, List.not_mem_nil, or_false] at hj
                 rcases hj with rfl | rfl
                 · exact ⟨⟨lv, hpersist2 _ _ _ (hfr2.2.2.2.2.2 _ _ hm1)⟩,
                     hextstore fuel _ (hfr2.evald_fwd_extend hev1)⟩
                 · exact ⟨⟨rv, hpersist2 _ _ _ hm2⟩, hextstore fuel _ hev2⟩
               refine ⟨hev', ?_⟩
               intro j w hjw
               rcases eq_or_ne i j with rfl | hne
               · exact Or.inr ⟨fuel+1, hev'⟩
               · replace hjw : (g2.buffer.set i (some res))[j]? = some (some w) := hjw
                 rw [List.getElem?_set_ne hne] at hjw
                 rcases hpre2 j w hjw with hvs | ⟨f, hevf⟩
                 · exact Or.inl hvs
                 · exact Or.inr ⟨f, hextstore f j hevf⟩)
            | (rw [except_bind_ok_iff] at h
               obtain ⟨⟨res, gx⟩, hinner, houter⟩ := h
               rw [except_bind_ok_iff] at hinner
               obtain ⟨⟨ov, g1⟩, ho, hinner⟩ := hinner
               simp only [except_pure, Except.ok.injEq, Prod.mk.injEq] at hinner houter
               obtain ⟨hres, rfl⟩ := hinner
               obtain ⟨rfl, rfl⟩ := houter
               obtain ⟨hfr1, hm1⟩ := forwardStep_ok ops fuel _ _ _ _ ho
               obtain ⟨hev1, hpre1⟩ := forwardStep_evald ops fuel _ _ _ _ ho hinv hpre
                 (lt_of_lt_of_le (hbound _ (by simp [Node.operands])) (Nat.lt_succ_iff.mp hlt))
               have hi2 : g1.buffer[i]? = some none := by
                 rw [forwardStep_writes_le ops fuel _ _ _ _ ho hinv i
                     (hbound _ (by simp [Node.operands])), hb]
               have hpersist2 : ∀ (z : Option α) (j : Nat) (w : α),
                   g1.buffer[j]? = some (some w) → (g1.buffer.set i z)[j]? = some (some w) := by
                 intro z j w hjw
                 rcases eq_or_ne i j with rfl | hne
                 · rw [hi2] at hjw
                   simp at hjw
                 · rw [List.getElem?_set_ne hne]
                   exact hjw
               have hextstore : ∀ (f' j' : Nat), evald f' g1 j' →
                   evald f' { g1 with buffer := g1.buffer.set i (some res) } j' :=
                 fun f' j' hE => evald_extend
                   (show ({ g1 with buffer := g1.buffer.set i (some res) } : Graph α).nodes
                      = g1.nodes from rfl)
                   (fun j2 w2 hj2 => hpersist2 _ j2 w2 hj2)
                   (show ({ g1 with
                        buffer := g1.buffer.set i (some res) } : Graph α).gradients.length
                      = g1.gradients.length from rfl) hE
               have hn2 : g1.nodes[i]? = g.nodes[i]? := by rw [hfr1.1]
               have hev' : evald (fuel+1) { g1 with buffer := g1.buffer.set i (some res) } i := by
                 refine ⟨_, hn2.trans hn, ?_⟩
                 intro j hj
                 simp only [Node.operands, List.mem_cons, List.not_mem_nil, or_false] at hj
                 subst hj
                 exact ⟨⟨ov, hpersist2 _ _ _ hm1⟩, hextstore fuel _ hev1⟩
               refine ⟨hev', ?_⟩
               intro j w hjw
               rcases eq_or_ne i j with rfl | hne
               · exact Or.inr ⟨fuel+1, hev'⟩
               · replace hjw : (g1.buffer.set i (some res))[j]? = some (some w) := hjw
                 rw [List.getElem?_set_ne hne] at hjw
                 rcases hpre1 j w hjw with hvs | ⟨f, hevf⟩
                 · exact Or.inl hvs
                 · exact Or.inr ⟨f, hextstore f j hevf⟩)
            | simp [Bind.bind, Except.bind] at h


theorem except_ok_bind {ε β γ : Type} (a : β) (f : β → Except ε γ) :
    (Except.ok a >>= f) = f a := rfl

theorem evald_pos [Zero α] {f : Nat} {g : Graph α} {i : Nat} (h : evald f g i) : 0 < f := by
  cases f with
  | zero => cases h
  | succ n => omega

/-- The `Var` arm of `backward_step`, run on an in-range gradient slot. -/
theorem backwardStep_var_run [Field α] (ops : ScalarOps α) {fuel : Nat} {g : Graph α}
    {i vi : Nat} {u : α} (hn : g.nodes[i]? = some (.Var vi))
    (hvi : vi < g.gradients.length) :
    backwardStep ops (fuel+1) g i u =
      .ok { g with gradients := g.gradients.set vi (g.gradients.getD vi 0 + u) } := by
  rw [backwardStep, hn]
  show (if vi < g.gradients.length then _ else _) = _
  rw [if_pos hvi]

/-- The `Add` arm of `backward_step`. -/
theorem backwardStep_add_run [Field α] (ops : ScalarOps α) {fuel : Nat} {g : Graph α}
    {i l r : Nat} {u : α} (hn : g.nodes[i]? = some (.Add l r)) :
    backwardStep ops (fuel+1) g i u =
      (backwardStep ops fuel g l u) >>= fun g1 => backwardStep ops fuel g1 r u := by
  rw [backwardStep, hn]

/-- The `Sub` arm of `backward_step`. -/
theorem backwardStep_sub_run [Field α] (ops : ScalarOps α) {fuel : Nat} {g : Graph α}
    {i l r : Nat} {u : α} (hn : g.nodes[i]? = some (.Sub l r)) :
    backwardStep ops (fuel+1) g i u =
      (backwardStep ops fuel g l u) >>= fun g1 => backwardStep ops fuel g1 r (-u) := by
  rw [backwardStep, hn]

/-- The `Addf` arm of `backward_step`. -/
theorem backwardStep_addf_run [Field α] (ops : ScalarOps α) {fuel : Nat} {g : Graph α}
    {i r : Nat} {num u : α} (hn : g.nodes[i]? = some (.Addf num r)) :
    backwardStep ops (fuel+1) g i u = backwardStep ops fuel g r u := by
  rw [backwardStep, hn]

/-- The `Subf` arm of `backward_step`. -/
theorem backwardStep_subf_run [Field α] (ops : ScalarOps α) {fuel : Nat} {g : Graph α}
    {i l : Nat} {num u : α} (hn : g.nodes[i]? = some (.Subf l num)) :
    backwardStep ops (fuel+1) g i u = backwardStep ops fuel g l u := by
  rw [backwardStep, hn]

/-- The `Mulf` arm of `backward_step`. -/
theorem backwardStep_mulf_run [Field α] (ops : ScalarOps α) {fuel : Nat} {g : Graph α}
    {i r : Nat} {num u : α} (hn : g.nodes[i]? = some (.Mulf num r)) :
    backwardStep ops (fuel+1) g i u = backwardStep ops fuel g r (num * u) := by
  rw [backwardStep, hn]

/-- The `Mul` arm of `backward_step` with both operand values memoized. -/
theorem backwardStep_mul_run [Field α] (ops : ScalarOps α) {fuel : Nat} {g : Graph α}
    {i l r : Nat} {u lv rv : α} (hn : g.nodes[i]? = some (.Mul l r)) (hpos : 0 < fuel)
    (hl : g.buffer[l]? = some (some lv)) (hr : g.buffer[r]? = some (some rv)) :
    backwardStep ops (fuel+1) g i u =
      (backwardStep ops fuel g l (rv * u)) >>= fun g1 =>
        backwardStep ops fuel g1 r (lv * u) := by
  rw [backwardStep, hn]
  show ((do
      let (left_val, ga) ← forwardStep ops fuel g l
      let (right_val, gb) ← forwardStep ops fuel ga r
      let g1 ← backwardStep ops fuel gb l (right_val * u)
      backwardStep ops fuel g1 r (left_val * u)) : Except EvalErr (Graph α)) = _
  rw [forwardStep_memo ops hpos hl, except_ok_bind]
  show ((do
      let (right_val, gb) ← forwardStep ops fuel g r
      let g1 ← backwardStep ops fuel gb l (right_val * u)
      backwardStep ops fuel g1 r (lv * u)) : Except EvalErr (Graph α)) = _
  rw [forwardStep_memo ops hpos hr, except_ok_bind]

/-- The `Div` arm of `backward_step` with both operand values memoized. -/
theorem backwardStep_div_run [Field α] (ops : ScalarOps α) {fuel : Nat} {g : Graph α}
    {i l r : Nat} {u lv rv : α} (hn : g.nodes[i]? = some (.Div l r)) (hpos : 0 < fuel)
    (hl : g.buffer[l]? = some (some lv)) (hr : g.buffer[r]? = some (some rv)) :
    backwardStep ops (fuel+1) g i u =
      (backwardStep ops fuel g l (u / rv)) >>= fun g1 =>
        backwardStep ops fuel g1 r (-u * lv / rv ^ (2:Int)) := by
  rw [backwardStep, hn]
  show ((do
      let (left_val, ga) ← forwardStep ops fuel g l
      let (right_val, gb) ← forwardStep ops fuel ga r
      let g1 ← backwardStep ops fuel gb l (u / right_val)
      backwardStep ops fuel g1 r (-u * left_val / right_val ^ (2:Int))) : Except EvalErr (Graph α)) = _
  rw [forwardStep_memo ops hpos hl, except_ok_bind]
  show ((do
      let (right_val, gb) ← forwardStep ops fuel g r
      let g1 ← backwardStep ops fuel gb l (u / right_val)
      backwardStep ops fuel g1 r (-u * lv / right_val ^ (2:Int))) : Except EvalErr (Graph α)) = _
  rw [forwardStep_memo ops hpos hr, except_ok_bind]

/-- The `Pow` arm of `backward_step` with both operand values memoized. -/
theorem backwardStep_pow_run [Field α] (ops : ScalarOps α) {fuel : Nat} {g : Graph α}
    {i l r : Nat} {u lv rv : α} (hn : g.nodes[i]? = some (.Pow l r)) (hpos : 0 < fuel)
    (hl : g.buffer[l]? = some (some lv)) (hr : g.buffer[r]? = some (some rv)) :
    backwardStep ops (fuel+1) g i u =
      (backwardStep ops fuel g l (rv * ops.fpow lv (rv - 1) * u)) >>= fun g1 =>
        backwardStep ops fuel g1 r (ops.fln lv * ops.fpow lv (rv - 1) * u) := by
  rw [backwardStep, hn]
  show ((do
      let (left_val, ga) ← forwardStep ops fuel g l
      let (right_val, gb) ← forwardStep ops fuel ga r
      let g1 ← backwardStep ops fuel gb l (right_val * ops.fpow left_val (right_val - 1) * u)
      backwardStep ops fuel g1 r (ops.fln left_val * ops.fpow left_val (right_val - 1) * u)) : Except EvalErr (Graph α)) = _
  rw [forwardStep_memo ops hpos hl, except_ok_bind]
  show ((do
      let (right_val, gb) ← forwardStep ops fuel g r
      let g1 ← backwardStep ops fuel gb l (right_val * ops.fpow lv (right_val - 1) * u)
      backwardStep ops fuel g1 r (ops.fln lv * ops.fpow lv (right_val - 1) * u)) : Except EvalErr (Graph α)) = _
  rw [forwardStep_memo ops hpos hr, except_ok_bind]

/-- The `Powf` arm of `backward_step` with the operand value memoized. -/
theorem backwardStep_powf_run [Field α] (ops : ScalarOps α) {fuel : Nat} {g : Graph α}
    {i o : Nat} {power : α} {u ov : α} (hn : g.nodes[i]? = some (.Powf o power)) (hpos : 0 < fuel)
    (ho : g.buffer[o]? = some (some ov)) :
    backwardStep ops (fuel+1) g i u = backwardStep ops fuel g o (power * ops.fpow ov (power - 1) * u) := by
  rw [backwardStep, hn]
  show ((do
      let (operand_val, ga) ← forwardStep ops fuel g o
      backwardStep ops fuel ga o (power * ops.fpow operand_val (power - 1) * u)) : Except EvalErr (Graph α)) = _
  rw [forwardStep_memo ops hpos ho, except_ok_bind]

/-- The `Powi` arm of `backward_step` with the operand value memoized. -/
theorem backwardStep_powi_run [Field α] (ops : ScalarOps α) {fuel : Nat} {g : Graph α}
    {i o : Nat} {power : Int} {u ov : α} (hn : g.nodes[i]? = some (.Powi o power)) (hpos : 0 < fuel)
    (ho : g.buffer[o]? = some (some ov)) :
    backwardStep ops (fuel+1) g i u = backwardStep ops fuel g o ((power : α) * ov ^ (power - 1) * u) := by
  rw [backwardStep, hn]
  show ((do
      let (operand_val, ga) ← forwardStep ops fuel g o
      backwardStep ops fuel ga o ((power : α) * operand_val ^ (power - 1) * u)) : Except EvalErr (Graph α)) = _
  rw [forwardStep_memo ops hpos ho, except_ok_bind]

/-- The `Neg` arm of `backward_step` with the operand value memoized. -/
theorem backwardStep_neg_run [Field α] (ops : ScalarOps α) {fuel : Nat} {g : Graph α}
    {i o : Nat} {u ov : α} (hn : g.nodes[i]? = some (.Neg o)) (hpos : 0 < fuel)
    (ho : g.buffer[o]? = some (some ov)) :
    backwardStep ops (fuel+1) g i u = backwardStep ops fuel g o (-u * ov) := by
  rw [backwardStep, hn]
  show ((do
      let (operand_val, ga) ← forwardStep ops fuel g o
      backwardStep ops fuel ga o (-u * operand_val)) : Except EvalErr (Graph α)) = _
  rw [forwardStep_memo ops hpos ho, except_ok_bind]

/-- The `Recip` arm of `backward_step` with the operand value memoized. -/
theorem backwardStep_recip_run [Field α] (ops : ScalarOps α) {fuel : Nat} {g : Graph α}
    {i o : Nat} {u ov : α} (hn : g.nodes[i]? = some (.Recip o)) (hpos : 0 < fuel)
    (ho : g.buffer[o]? = some (some ov)) :
    backwardStep ops (fuel+1) g i u = backwardStep ops fuel g o (-u / ov ^ (2:Int)) := by
  rw [backwardStep, hn]
  show ((do
      let (operand_val, ga) ← forwardStep ops fuel g o
      backwardStep ops fuel ga o (-u / operand_val ^ (2:Int))) : Except EvalErr (Graph α)) = _
  rw [forwardStep_memo ops hpos ho, except_ok_bind]

/-- The `Exp` arm of `backward_step` with the operand value memoized. -/
theorem backwardStep_exp_run [Field α] (ops : ScalarOps α) {fuel : Nat} {g : Graph α}
    {i o : Nat} {u ov : α} (hn : g.nodes[i]? = some (.Exp o)) (hpos : 0 < fuel)
    (ho : g.buffer[o]? = some (some ov)) :
    backwardStep ops (fuel+1) g i u = backwardStep ops fuel g o (ops.fexp ov * u) := by
  rw [backwardStep, hn]
  show ((do
      let (operand_val, ga) ← forwardStep ops fuel g o
      backwardStep ops fuel ga o (ops.fexp operand_val * u)) : Except EvalErr (Graph α)) = _
  rw [forwardStep_memo ops hpos ho, except_ok_bind]

/-- The `Ln` arm of `backward_step` with the operand value memoized. -/
theorem backwardStep_ln_run [Field α] (ops : ScalarOps α) {fuel : Nat} {g : Graph α}
    {i o : Nat} {u ov : α} (hn : g.nodes[i]? = some (.Ln o)) (hpos : 0 < fuel)
    (ho : g.buffer[o]? = some (some ov)) :
    backwardStep ops (fuel+1) g i u = backwardStep ops fuel g o (u / ov) := by
  rw [backwardStep, hn]
  show ((do
      let (operand_val, ga) ← forwardStep ops fuel g o
      backwardStep ops fuel ga o (u / operand_val)) : Except EvalErr (Graph α)) = _
  rw [forwardStep_memo ops hpos ho, except_ok_bind]

/-- The `Sin` arm of `backward_step` with the operand value memoized. -/
theorem backwardStep_sin_run [Field α] (ops : ScalarOps α) {fuel : Nat} {g : Graph α}
    {i o : Nat} {u ov : α} (hn : g.nodes[i]? = some (.Sin o)) (hpos : 0 < fuel)
    (ho : g.buffer[o]? = some (some ov)) :
    backwardStep ops (fuel+1) g i u = backwardStep ops fuel g o (ops.fcos ov * u) := by
  rw [backwardStep, hn]
  show ((do
      let (operand_val, ga) ← forwardStep ops fuel g o
      backwardStep ops fuel ga o (ops.fcos operand_val * u)) : Except EvalErr (Graph α)) = _
  rw [forwardStep_memo ops hpos ho, except_ok_bind]

/-- The `Cos` arm of `backward_step` with the operand value memoized. -/
theorem backwardStep_cos_run [Field α] (ops : ScalarOps α) {fuel : Nat} {g : Graph α}
    {i o : Nat} {u ov : α} (hn : g.nodes[i]? = some (.Cos o)) (hpos : 0 < fuel)
    (ho : g.buffer[o]? = some (some ov)) :
    backwardStep ops (fuel+1) g i u = backwardStep ops fuel g o (-ops.fsin ov * u) := by
  rw [backwardStep, hn]
  show ((do
      let (operand_val, ga) ← forwardStep ops fuel g o
      backwardStep ops fuel ga o (-ops.fsin operand_val * u)) : Except EvalErr (Graph α)) = _
  rw [forwardStep_memo ops hpos ho, except_ok_bind]

/-- The `Tan` arm of `backward_step` with the operand value memoized. -/
theorem backwardStep_tan_run [Field α] (ops : ScalarOps α) {fuel : Nat} {g : Graph α}
    {i o : Nat} {u ov : α} (hn : g.nodes[i]? = some (.Tan o)) (hpos : 0 < fuel)
    (ho : g.buffer[o]? = some (some ov)) :
    backwardStep ops (fuel+1) g i u = backwardStep ops fuel g o ((1 + ops.ftan ov ^ (2:Int)) * u) := by
  rw [backwardStep, hn]
  show ((do
      let (operand_val, ga) ← forwardStep ops fuel g o
      backwardStep ops fuel ga o ((1 + ops.ftan operand_val ^ (2:Int)) * u)) : Except EvalErr (Graph α)) = _
  rw [forwardStep_memo ops hpos ho, except_ok_bind]

/-- The `Sinh` arm of `backward_step` with the operand value memoized. -/
theorem backwardStep_sinh_run [Field α] (ops : ScalarOps α) {fuel : Nat} {g : Graph α}
    {i o : Nat} {u ov : α} (hn : g.nodes[i]? = some (.Sinh o)) (hpos : 0 < fuel)
    (ho : g.buffer[o]? = some (some ov)) :
    backwardStep ops (fuel+1) g i u = backwardStep ops fuel g o (ops.fcosh ov * u) := by
  rw [backwardStep, hn]
  show ((do
      let (operand_val, ga) ← forwardStep ops fuel g o
      backwardStep ops fuel ga o (ops.fcosh operand_val * u)) : Except EvalErr (Graph α)) = _
  rw [forwardStep_memo ops hpos ho, except_ok_bind]

/-- The `Cosh` arm of `backward_step` with the operand value memoized. -/
theorem backwardStep_cosh_run [Field α] (ops : ScalarOps α) {fuel : Nat} {g : Graph α}
    {i o : Nat} {u ov : α} (hn : g.nodes[i]? = some (.Cosh o)) (hpos : 0 < fuel)
    (ho : g.buffer[o]? = some (some ov)) :
    backwardStep ops (fuel+1) g i u = backwardStep ops fuel g o (ops.fsinh ov * u) := by
  rw [backwardStep, hn]
  show ((do
      let (operand_val, ga) ← forwardStep ops fuel g o
      backwardStep ops fuel ga o (ops.fsinh operand_val * u)) : Except EvalErr (Graph α)) = _
  rw [forwardStep_memo ops hpos ho, except_ok_bind]

/-- The `Tanh` arm of `backward_step` with the operand value memoized. -/
theorem backwardStep_tanh_run [Field α] (ops : ScalarOps α) {fuel : Nat} {g : Graph α}
    {i o : Nat} {u ov : α} (hn : g.nodes[i]? = some (.Tanh o)) (hpos : 0 < fuel)
    (ho : g.buffer[o]? = some (some ov)) :
    backwardStep ops (fuel+1) g i u = backwardStep ops fuel g o ((1 - ops.ftanh ov ^ (2:Int)) * u) := by
  rw [backwardStep, hn]
  show ((do
      let (operand_val, ga) ← forwardStep ops fuel g o
      backwardStep ops fuel ga o ((1 - ops.ftanh operand_val ^ (2:Int)) * u)) : Except EvalErr (Graph α)) = _
  rw [forwardStep_memo ops hpos ho, except_ok_bind]


/-- On a fully evaluated (`evald`) index, `backward_step` succeeds, leaves
everything except gradient contents unchanged, and adds a gradient delta
that depends only on the node list and the memoized values: running it on a
second tape with the same nodes and value buffer (but any gradient
contents of the same length) adds exactly the same delta. -/
theorem backwardStep_delta [Field α] (ops : ScalarOps α) :
    ∀ (fuel : Nat) (g k : Graph α) (i : Nat) (u : α),
      evald fuel g i →
      k.nodes = g.nodes → k.buffer = g.buffer → k.gradients.length = g.gradients.length →
      ∃ g' k', backwardStep ops fuel g i u = .ok g' ∧ backwardStep ops fuel k i u = .ok k' ∧
        g'.buffer = g.buffer ∧ g'.nodes = g.nodes ∧ g'.value_ics = g.value_ics ∧
        g'.compiled = g.compiled ∧ g'.gradients.length = g.gradients.length ∧
        k'.buffer = k.buffer ∧ k'.nodes = k.nodes ∧ k'.value_ics = k.value_ics ∧
        k'.compiled = k.compiled ∧ k'.gradients.length = k.gradients.length ∧
        ∀ j, g'.gradients.getD j 0 - g.gradients.getD j 0 =
             k'.gradients.getD j 0 - k.gradients.getD j 0
  | 0, g, k, i, u, hev => absurd hev (by simp [evald])
  | fuel+1, g, k, i, u, hev => by
    intro hknodes hkbuf hklen
    obtain ⟨node, hn, hp⟩ := hev
    have hkn : k.nodes[i]? = some node := by rw [hknodes]; exact hn
    cases node with
    | Var vi =>
      have hvi : vi < g.gradients.length := hp
      have hkvi : vi < k.gradients.length := by rw [hklen]; exact hvi
      refine ⟨_, _, backwardStep_var_run ops hn hvi, backwardStep_var_run ops hkn hkvi,
        rfl, rfl, rfl, rfl, by simp, rfl, rfl, rfl, rfl, by simp, ?_⟩
      intro j
      show (g.gradients.set vi (g.gradients.getD vi 0 + u)).getD j 0
          - g.gradients.getD j 0 = _
      rw [getD_set_add g.gradients hvi u j]
      show _ = (k.gradients.set vi (k.gradients.getD vi 0 + u)).getD j 0
          - k.gradients.getD j 0
      rw [getD_set_add k.gradients hkvi u j]
    | Add l r =>
      obtain ⟨⟨lv, hbl⟩, hev_l⟩ := hp l (by simp [Node.operands])
      obtain ⟨⟨rv, hbr⟩, hev_r⟩ := hp r (by simp [Node.operands])
      obtain ⟨g1, k1, e1, e2, gb1, gn1, gv1, gc1, gl1, kb1, kn1, kv1, kc1, kl1, hd1⟩ :=
        backwardStep_delta ops fuel g k l (u) hev_l hknodes hkbuf hklen
      have hev_r1 : evald fuel g1 r :=
        evald_extend gn1 (fun j w hj => by rw [gb1]; exact hj) gl1 hev_r
      obtain ⟨g2, k2, f1, f2, gb2, gn2, gv2, gc2, gl2, kb2, kn2, kv2, kc2, kl2, hd2⟩ :=
        backwardStep_delta ops fuel g1 k1 r (u) hev_r1
          (by rw [kn1, hknodes, gn1]) (by rw [kb1, hkbuf, gb1]) (by rw [kl1, hklen, gl1])
      refine ⟨g2, k2, ?_, ?_, by rw [gb2, gb1], by rw [gn2, gn1], by rw [gv2, gv1],
        by rw [gc2, gc1], by rw [gl2, gl1], by rw [kb2, kb1], by rw [kn2, kn1],
        by rw [kv2, kv1], by rw [kc2, kc1], by rw [kl2, kl1], ?_⟩
      · rw [backwardStep_add_run ops hn, e1, except_ok_bind]
        exact f1
      · rw [backwardStep_add_run ops hkn, e2, except_ok_bind]
        exact f2
      · intro j
        have heq : g2.gradients.getD j 0 - g.gradients.getD j 0 =
            (g2.gradients.getD j 0 - g1.gradients.getD j 0) +
            (g1.gradients.getD j 0 - g.gradients.getD j 0) := by ring
        rw [heq, hd1 j, hd2 j]
        ring
    | Sub l r =>
      obtain ⟨⟨lv, hbl⟩, hev_l⟩ := hp l (by simp [Node.operands])
      obtain ⟨⟨rv, hbr⟩, hev_r⟩ := hp r (by simp [Node.operands])
      obtain ⟨g1, k1, e1, e2, gb1, gn1, gv1, gc1, gl1, kb1, kn1, kv1, kc1, kl1, hd1⟩ :=
        backwardStep_delta ops fuel g k l (u) hev_l hknodes hkbuf hklen
      have hev_r1 : evald fuel g1 r :=
        evald_extend gn1 (fun j w hj => by rw [gb1]; exact hj) gl1 hev_r
      obtain ⟨g2, k2, f1, f2, gb2, gn2, gv2, gc2, gl2, kb2, kn2, kv2, kc2, kl2, hd2⟩ :=
        backwardStep_delta ops fuel g1 k1 r (-u) hev_r1
          (by rw [kn1, hknodes, gn1]) (by rw [kb1, hkbuf, gb1]) (by rw [kl1, hklen, gl1])
      refine ⟨g2, k2, ?_, ?_, by rw [gb2, gb1], by rw [gn2, gn1], by rw [gv2, gv1],
        by rw [gc2, gc1], by rw [gl2, gl1], by rw [kb2, kb1], by rw [kn2, kn1],
        by rw [kv2, kv1], by rw [kc2, kc1], by rw [kl2, kl1], ?_⟩
      · rw [backwardStep_sub_run ops hn, e1, except_ok_bind]
        exact f1
      · rw [backwardStep_sub_run ops hkn, e2, except_ok_bind]
        exact f2
      · intro j
        have heq : g2.gradients.getD j 0 - g.gradients.getD j 0 =
            (g2.gradients.getD j 0 - g1.gradients.getD j 0) +
            (g1.gradients.getD j 0 - g.gradients.getD j 0) := by ring
        rw [heq, hd1 j, hd2 j]
        ring
    | Addf num r =>
      obtain ⟨⟨ov, hbo⟩, hev_o⟩ := hp r (by simp [Node.operands])
      obtain ⟨g1, k1, e1, e2, gb1, gn1, gv1, gc1, gl1, kb1, kn1, kv1, kc1, kl1, hd1⟩ :=
        backwardStep_delta ops fuel g k r (u) hev_o hknodes hkbuf hklen
      exact ⟨g1, k1, by rw [backwardStep_addf_run ops hn]; exact e1,
        by rw [backwardStep_addf_run ops hkn]; exact e2,
        gb1, gn1, gv1, gc1, gl1, kb1, kn1, kv1, kc1, kl1, hd1⟩
    | Subf l num =>
      obtain ⟨⟨ov, hbo⟩, hev_o⟩ := hp l (by simp [Node.operands])
      obtain ⟨g1, k1, e1, e2, gb1, gn1, gv1, gc1, gl1, kb1, kn1, kv1, kc1, kl1, hd1⟩ :=
        backwardStep_delta ops fuel g k l (u) hev_o hknodes hkbuf hklen
      exact ⟨g1, k1, by rw [backwardStep_subf_run ops hn]; exact e1,
        by rw [backwardStep_subf_run ops hkn]; exact e2,
        gb1, gn1, gv1, gc1, gl1, kb1, kn1, kv1, kc1, kl1, hd1⟩
    | Mulf num r =>
      obtain ⟨⟨ov, hbo⟩, hev_o⟩ := hp r (by simp [Node.operands])
      obtain ⟨g1, k1, e1, e2, gb1, gn1, gv1, gc1, gl1, kb1, kn1, kv1, kc1, kl1, hd1⟩ :=
        backwardStep_delta ops fuel g k r (num * u) hev_o hknodes hkbuf hklen
      exact ⟨g1, k1, by rw [backwardStep_mulf_run ops hn]; exact e1,
        by rw [backwardStep_mulf_run ops hkn]; exact e2,
        gb1, gn1, gv1, gc1, gl1, kb1, kn1, kv1, kc1, kl1, hd1⟩
    | Mul l r =>
      obtain ⟨⟨lv, hbl⟩, hev_l⟩ := hp l (by simp [Node.operands])
      obtain ⟨⟨rv, hbr⟩, hev_r⟩ := hp r (by simp [Node.operands])
      have hpos : 0 < fuel := evald_pos hev_l
      have hkbl : k.buffer[l]? = some (some lv) := by rw [hkbuf]; exact hbl
      have hkbr : k.buffer[r]? = some (some rv) := by rw [hkbuf]; exact hbr
      obtain ⟨g1, k1, e1, e2, gb1, gn1, gv1, gc1, gl1, kb1, kn1, kv1, kc1, kl1, hd1⟩ :=
        backwardStep_delta ops fuel g k l (rv * u) hev_l hknodes hkbuf hklen
      have hev_r1 : evald fuel g1 r :=
        evald_extend gn1 (fun j w hj => by rw [gb1]; exact hj) gl1 hev_r
      obtain ⟨g2, k2, f1, f2, gb2, gn2, gv2, gc2, gl2, kb2, kn2, kv2, kc2, kl2, hd2⟩ :=
        backwardStep_delta ops fuel g1 k1 r (lv * u) hev_r1
          (by rw [kn1, hknodes, gn1]) (by rw [kb1, hkbuf, gb1]) (by rw [kl1, hklen, gl1])
      refine ⟨g2, k2, ?_, ?_, by rw [gb2, gb1], by rw [gn2, gn1], by rw [gv2, gv1],
        by rw [gc2, gc1], by rw [gl2, gl1], by rw [kb2, kb1], by rw [kn2, kn1],
        by rw [kv2, kv1], by rw [kc2, kc1], by rw [kl2, kl1], ?_⟩
      · rw [backwardStep_mul_run ops hn hpos hbl hbr, e1, except_ok_bind]
        exact f1
      · rw [backwardStep_mul_run ops hkn hpos hkbl hkbr, e2, except_ok_bind]
        exact f2
      · intro j
        have heq : g2.gradients.getD j 0 - g.gradients.getD j 0 =
            (g2.gradients.getD j 0 - g1.gradients.getD j 0) +
            (g1.gradients.getD j 0 - g.gradients.getD j 0) := by ring
        rw [heq, hd1 j, hd2 j]
        ring
    | Div l r =>
      obtain ⟨⟨lv, hbl⟩, hev_l⟩ := hp l (by simp [Node.operands])
      obtain ⟨⟨rv, hbr⟩, hev_r⟩ := hp r (by simp [Node.operands])
      have hpos : 0 < fuel := evald_pos hev_l
      have hkbl : k.buffer[l]? = some (some lv) := by rw [hkbuf]; exact hbl
      have hkbr : k.buffer[r]? = some (some rv) := by rw [hkbuf]; exact hbr
      obtain ⟨g1, k1, e1, e2, gb1, gn1, gv1, gc1, gl1, kb1, kn1, kv1, kc1, kl1, hd1⟩ :=
        backwardStep_delta ops fuel g k l (u / rv) hev_l hknodes hkbuf hklen
      have hev_r1 : evald fuel g1 r :=
        evald_extend gn1 (fun j w hj => by rw [gb1]; exact hj) gl1 hev_r
      obtain ⟨g2, k2, f1, f2, gb2, gn2, gv2, gc2, gl2, kb2, kn2, kv2, kc2, kl2, hd2⟩ :=
        backwardStep_delta ops fuel g1 k1 r (-u * lv / rv ^ (2:Int)) hev_r1
          (by rw [kn1, hknodes, gn1]) (by rw [kb1, hkbuf, gb1]) (by rw [kl1, hklen, gl1])
      refine ⟨g2, k2, ?_, ?_, by rw [gb2, gb1], by rw [gn2, gn1], by rw [gv2, gv1],
        by rw [gc2, gc1], by rw [gl2, gl1], by rw [kb2, kb1], by rw [kn2, kn1],
        by rw [kv2, kv1], by rw [kc2, kc1], by rw [kl2, kl1], ?_⟩
      · rw [backwardStep_div_run ops hn hpos hbl hbr, e1, except_ok_bind]
        exact f1
      · rw [backwardStep_div_run ops hkn hpos hkbl hkbr, e2, except_ok_bind]
        exact f2
      · intro j
        have heq : g2.gradients.getD j 0 - g.gradients.getD j 0 =
            (g2.gradients.getD j 0 - g1.gradients.getD j 0) +
            (g1.gradients.getD j 0 - g.gradients.getD j 0) := by ring
        rw [heq, hd1 j, hd2 j]
        ring
    | Pow l r =>
      obtain ⟨⟨lv, hbl⟩, hev_l⟩ := hp l (by simp [Node.operands])
      obtain ⟨⟨rv, hbr⟩, hev_r⟩ := hp r (by simp [Node.operands])
      have hpos : 0 < fuel := evald_pos hev_l
      have hkbl : k.buffer[l]? = some (some lv) := by rw [hkbuf]; exact hbl
      have hkbr : k.buffer[r]? = some (some rv) := by rw [hkbuf]; exact hbr
      obtain ⟨g1, k1, e1, e2, gb1, gn1, gv1, gc1, gl1, kb1, kn1, kv1, kc1, kl1, hd1⟩ :=
        backwardStep_delta ops fuel g k l (rv * ops.fpow lv (rv - 1) * u) hev_l hknodes hkbuf hklen
      have hev_r1 : evald fuel g1 r :=
        evald_extend gn1 (fun j w hj => by rw [gb1]; exact hj) gl1 hev_r
      obtain ⟨g2, k2, f1, f2, gb2, gn2, gv2, gc2, gl2, kb2, kn2, kv2, kc2, kl2, hd2⟩ :=
        backwardStep_delta ops fuel g1 k1 r (ops.fln lv * ops.fpow lv (rv - 1) * u) hev_r1
          (by rw [kn1, hknodes, gn1]) (by rw [kb1, hkbuf, gb1]) (by rw [kl1, hklen, gl1])
      refine ⟨g2, k2, ?_, ?_, by rw [gb2, gb1], by rw [gn2, gn1], by rw [gv2, gv1],
        by rw [gc2, gc1], by rw [gl2, gl1], by rw [kb2, kb1], by rw [kn2, kn1],
        by rw [kv2, kv1], by rw [kc2, kc1], by rw [kl2, kl1], ?_⟩
      · rw [backwardStep_pow_run ops hn hpos hbl hbr, e1, except_ok_bind]
        exact f1
      · rw [backwardStep_pow_run ops hkn hpos hkbl hkbr, e2, except_ok_bind]
        exact f2
      · intro j
        have heq : g2.gradients.getD j 0 - g.gradients.getD j 0 =
            (g2.gradients.getD j 0 - g1.gradients.getD j 0) +
            (g1.gradients.getD j 0 - g.gradients.getD j 0) := by ring
        rw [heq, hd1 j, hd2 j]
        ring
    | Powf o power =>
      obtain ⟨⟨ov, hbo⟩, hev_o⟩ := hp o (by simp [Node.operands])
      have hpos : 0 < fuel := evald_pos hev_o
      have hkbo : k.buffer[o]? = some (some ov) := by rw [hkbuf]; exact hbo
      obtain ⟨g1, k1, e1, e2, gb1, gn1, gv1, gc1, gl1, kb1, kn1, kv1, kc1, kl1, hd1⟩ :=
        backwardStep_delta ops fuel g k o (power * ops.fpow ov (power - 1) * u) hev_o hknodes hkbuf hklen
      exact ⟨g1, k1, by rw [backwardStep_powf_run ops hn hpos hbo]; exact e1,
        by rw [backwardStep_powf_run ops hkn hpos hkbo]; exact e2,
        gb1, gn1, gv1, gc1, gl1, kb1, kn1, kv1, kc1, kl1, hd1⟩
    | Powi o power =>
      obtain ⟨⟨ov, hbo⟩, hev_o⟩ := hp o (by simp [Node.operands])
      have hpos : 0 < fuel := evald_pos hev_o
      have hkbo : k.buffer[o]? = some (some ov) := by rw [hkbuf]; exact hbo
      obtain ⟨g1, k1, e1, e2, gb1, gn1, gv1, gc1, gl1, kb1, kn1, kv1, kc1, kl1, hd1⟩ :=
        backwardStep_delta ops fuel g k o ((power : α) * ov ^ (power - 1) * u) hev_o hknodes hkbuf hklen
      exact ⟨g1, k1, by rw [backwardStep_powi_run ops hn hpos hbo]; exact e1,
        by rw [backwardStep_powi_run ops hkn hpos hkbo]; exact e2,
        gb1, gn1, gv1, gc1, gl1, kb1, kn1, kv1, kc1, kl1, hd1⟩
    | Neg o =>
      obtain ⟨⟨ov, hbo⟩, hev_o⟩ := hp o (by simp [Node.operands])
      have hpos : 0 < fuel := evald_pos hev_o
      have hkbo : k.buffer[o]? = some (some ov) := by rw [hkbuf]; exact hbo
      obtain ⟨g1, k1, e1, e2, gb1, gn1, gv1, gc1, gl1, kb1, kn1, kv1, kc1, kl1, hd1⟩ :=
        backwardStep_delta ops fuel g k o (-u * ov) hev_o hknodes hkbuf hklen
      exact ⟨g1, k1, by rw [backwardStep_neg_run ops hn hpos hbo]; exact e1,
        by rw [backwardStep_neg_run ops hkn hpos hkbo]; exact e2,
        gb1, gn1, gv1, gc1, gl1, kb1, kn1, kv1, kc1, kl1, hd1⟩
    | Recip o =>
      obtain ⟨⟨ov, hbo⟩, hev_o⟩ := hp o (by simp [Node.operands])
      have hpos : 0 < fuel := evald_pos hev_o
      have hkbo : k.buffer[o]? = some (some ov) := by rw [hkbuf]; exact hbo
      obtain ⟨g1, k1, e1, e2, gb1, gn1, gv1, gc1, gl1, kb1, kn1, kv1, kc1, kl1, hd1⟩ :=
        backwardStep_delta ops fuel g k o (-u / ov ^ (2:Int)) hev_o hknodes hkbuf hklen
      exact ⟨g1, k1, by rw [backwardStep_recip_run ops hn hpos hbo]; exact e1,
        by rw [backwardStep_recip_run ops hkn hpos hkbo]; exact e2,
        gb1, gn1, gv1, gc1, gl1, kb1, kn1, kv1, kc1, kl1, hd1⟩
    | Exp o =>
      obtain ⟨⟨ov, hbo⟩, hev_o⟩ := hp o (by simp [Node.operands])
      have hpos : 0 < fuel := evald_pos hev_o
      have hkbo : k.buffer[o]? = some (some ov) := by rw [hkbuf]; exact hbo
      obtain ⟨g1, k1, e1, e2, gb1, gn1, gv1, gc1, gl1, kb1, kn1, kv1, kc1, kl1, hd1⟩ :=
        backwardStep_delta ops fuel g k o (ops.fexp ov * u) hev_o hknodes hkbuf hklen
      exact ⟨g1, k1, by rw [backwardStep_exp_run ops hn hpos hbo]; exact e1,
        by rw [backwardStep_exp_run ops hkn hpos hkbo]; exact e2,
        gb1, gn1, gv1, gc1, gl1, kb1, kn1, kv1, kc1, kl1, hd1⟩
    | Ln o =>
      obtain ⟨⟨ov, hbo⟩, hev_o⟩ := hp o (by simp [Node.operands])
      have hpos : 0 < fuel := evald_pos hev_o
      have hkbo : k.buffer[o]? = some (some ov) := by rw [hkbuf]; exact hbo
      obtain ⟨g1, k1, e1, e2, gb1, gn1, gv1, gc1, gl1, kb1, kn1, kv1, kc1, kl1, hd1⟩ :=
        backwardStep_delta ops fuel g k o (u / ov) hev_o hknodes hkbuf hklen
      exact ⟨g1, k1, by rw [backwardStep_ln_run ops hn hpos hbo]; exact e1,
        by rw [backwardStep_ln_run ops hkn hpos hkbo]; exact e2,
        gb1, gn1, gv1, gc1, gl1, kb1, kn1, kv1, kc1, kl1, hd1⟩
    | Sin o =>
      obtain ⟨⟨ov, hbo⟩, hev_o⟩ := hp o (by simp [Node.operands])
      have hpos : 0 < fuel := evald_pos hev_o
      have hkbo : k.buffer[o]? = some (some ov) := by rw [hkbuf]; exact hbo
      obtain ⟨g1, k1, e1, e2, gb1, gn1, gv1, gc1, gl1, kb1, kn1, kv1, kc1, kl1, hd1⟩ :=
        backwardStep_delta ops fuel g k o (ops.fcos ov * u) hev_o hknodes hkbuf hklen
      exact ⟨g1, k1, by rw [backwardStep_sin_run ops hn hpos hbo]; exact e1,
        by rw [backwardStep_sin_run ops hkn hpos hkbo]; exact e2,
        gb1, gn1, gv1, gc1, gl1, kb1, kn1, kv1, kc1, kl1, hd1⟩
    | Cos o =>
      obtain ⟨⟨ov, hbo⟩, hev_o⟩ := hp o (by simp [Node.operands])
      have hpos : 0 < fuel := evald_pos hev_o
      have hkbo : k.buffer[o]? = some (some ov) := by rw [hkbuf]; exact hbo
      obtain ⟨g1, k1, e1, e2, gb1, gn1, gv1, gc1, gl1, kb1, kn1, kv1, kc1, kl1, hd1⟩ :=
        backwardStep_delta ops fuel g k o (-ops.fsin ov * u) hev_o hknodes hkbuf hklen
      exact ⟨g1, k1, by rw [backwardStep_cos_run ops hn hpos hbo]; exact e1,
        by rw [backwardStep_cos_run ops hkn hpos hkbo]; exact e2,
        gb1, gn1, gv1, gc1, gl1, kb1, kn1, kv1, kc1, kl1, hd1⟩
    | Tan o =>
      obtain ⟨⟨ov, hbo⟩, hev_o⟩ := hp o (by simp [Node.operands])
      have hpos : 0 < fuel := evald_pos hev_o
      have hkbo : k.buffer[o]? = some (some ov) := by rw [hkbuf]; exact hbo
      obtain ⟨g1, k1, e1, e2, gb1, gn1, gv1, gc1, gl1, kb1, kn1, kv1, kc1, kl1, hd1⟩ :=
        backwardStep_delta ops fuel g k o ((1 + ops.ftan ov ^ (2:Int)) * u) hev_o hknodes hkbuf hklen
      exact ⟨g1, k1, by rw [backwardStep_tan_run ops hn hpos hbo]; exact e1,
        by rw [backwardStep_tan_run ops hkn hpos hkbo]; exact e2,
        gb1, gn1, gv1, gc1, gl1, kb1, kn1, kv1, kc1, kl1, hd1⟩
    | Sinh o =>
      obtain ⟨⟨ov, hbo⟩, hev_o⟩ := hp o (by simp [Node.operands])
      have hpos : 0 < fuel := evald_pos hev_o
      have hkbo : k.buffer[o]? = some (some ov) := by rw [hkbuf]; exact hbo
      obtain ⟨g1, k1, e1, e2, gb1, gn1, gv1, gc1, gl1, kb1, kn1, kv1, kc1, kl1, hd1⟩ :=
        backwardStep_delta ops fuel g k o (ops.fcosh ov * u) hev_o hknodes hkbuf hklen
      exact ⟨g1, k1, by rw [backwardStep_sinh_run ops hn hpos hbo]; exact e1,
        by rw [backwardStep_sinh_run ops hkn hpos hkbo]; exact e2,
        gb1, gn1, gv1, gc1, gl1, kb1, kn1, kv1, kc1, kl1, hd1⟩
    | Cosh o =>
      obtain ⟨⟨ov, hbo⟩, hev_o⟩ := hp o (by simp [Node.operands])
      have hpos : 0 < fuel := evald_pos hev_o
      have hkbo : k.buffer[o]? = some (some ov) := by rw [hkbuf]; exact hbo
      obtain ⟨g1, k1, e1, e2, gb1, gn1, gv1, gc1, gl1, kb1, kn1, kv1, kc1, kl1, hd1⟩ :=
        backwardStep_delta ops fuel g k o (ops.fsinh ov * u) hev_o hknodes hkbuf hklen
      exact ⟨g1, k1, by rw [backwardStep_cosh_run ops hn hpos hbo]; exact e1,
        by rw [backwardStep_cosh_run ops hkn hpos hkbo]; exact e2,
        gb1, gn1, gv1, gc1, gl1, kb1, kn1, kv1, kc1, kl1, hd1⟩
    | Tanh o =>
      obtain ⟨⟨ov, hbo⟩, hev_o⟩ := hp o (by simp [Node.operands])
      have hpos : 0 < fuel := evald_pos hev_o
      have hkbo : k.buffer[o]? = some (some ov) := by rw [hkbuf]; exact hbo
      obtain ⟨g1, k1, e1, e2, gb1, gn1, gv1, gc1, gl1, kb1, kn1, kv1, kc1, kl1, hd1⟩ :=
        backwardStep_delta ops fuel g k o ((1 - ops.ftanh ov ^ (2:Int)) * u) hev_o hknodes hkbuf hklen
      exact ⟨g1, k1, by rw [backwardStep_tanh_run ops hn hpos hbo]; exact e1,
        by rw [backwardStep_tanh_run ops hkn hpos hkbo]; exact e2,
        gb1, gn1, gv1, gc1, gl1, kb1, kn1, kv1, kc1, kl1, hd1⟩



/-- An arbitrary interpretation of the `f64` transcendental operations over
ℚ, used only to instantiate tapes that contain no transcendental nodes. -/
def qOps : ScalarOps ℚ :=
  { fexp := fun _ => 0, fln := fun _ => 0, fsin := fun _ => 0, fcos := fun _ => 0,
    ftan := fun _ => 0, fsinh := fun _ => 0, fcosh := fun _ => 0, ftanh := fun _ => 0,
    fpow := fun _ _ => 0 }

theorem getD_set_self [Zero α] (L : List α) {vi : Nat} (X : α) (h : vi < L.length) :
    (L.set vi X).getD vi 0 = X := by
  rw [List.getD_eq_getElem?_getD, List.getElem?_set_self h]
  rfl

theorem getD_set_ne [Zero α] (L : List α) {vi j : Nat} (X : α) (h : vi ≠ j) :
    (L.set vi X).getD j 0 = L.getD j 0 := by
  rw [List.getD_eq_getElem?_getD, List.getElem?_set_ne h, ← List.getD_eq_getElem?_getD]

/-- C1: at the failing input `c = 2.0`, `e = Symbol x` with `x = var(4.0)`,
the literal-with-`Expr` overloads evaluate to: `2.0 + e ↦ 6`, `2.0 * e ↦ 8`
and owned `2.0 - e ↦ -2` as the claim states, but `2.0 / e` (both the owned
and the borrowed `Div` overload build `Recip(e)`, discarding the dividend)
evaluates to `1/4` instead of `2/4`, and borrowed `2.0 - &e` (which builds
`Subf(e, 2.0)` without the `Neg` wrapper) evaluates to `2` instead of `-2`. -/
theorem revad_c1_literal_with_expr_failing_input :
    ((((Graph.empty ℚ).var 4).2.compile (f64_add_expr 2 (Expr.Symbol 0))).forward
        qOps 5).map Prod.fst = .ok 6 ∧
    ((((Graph.empty ℚ).var 4).2.compile (f64_mul_expr 2 (Expr.Symbol 0))).forward
        qOps 5).map Prod.fst = .ok 8 ∧
    ((((Graph.empty ℚ).var 4).2.compile (f64_sub_expr 2 (Expr.Symbol 0))).forward
        qOps 5).map Prod.fst = .ok (-2) ∧
    ((((Graph.empty ℚ).var 4).2.compile (f64_div_expr 2 (Expr.Symbol 0))).forward
        qOps 5).map Prod.fst = .ok (1/4) ∧ (1/4 : ℚ) ≠ 2/4 ∧
    ((((Graph.empty ℚ).var 4).2.compile (f64_sub_expr_ref 2 (Expr.Symbol 0))).forward
        qOps 5).map Prod.fst = .ok 2 ∧ (2 : ℚ) ≠ 2 - 4 := by
  refine ⟨?_, ?_, ?_, ?_, by norm_num, ?_, by norm_num⟩
  · rw [show ((((Graph.empty ℚ).var 4).2.compile (f64_add_expr 2 (Expr.Symbol 0))).forward
        qOps 5).map Prod.fst = .ok ((2:ℚ) + 4) from rfl]
    norm_num
  · rw [show ((((Graph.empty ℚ).var 4).2.compile (f64_mul_expr 2 (Expr.Symbol 0))).forward
        qOps 5).map Prod.fst = .ok ((2:ℚ) * 4) from rfl]
    norm_num
  · rw [show ((((Graph.empty ℚ).var 4).2.compile (f64_sub_expr 2 (Expr.Symbol 0))).forward
        qOps 5).map Prod.fst = .ok (-((4:ℚ) - 2)) from rfl]
    norm_num
  · rfl
  · rw [show ((((Graph.empty ℚ).var 4).2.compile (f64_sub_expr_ref 2 (Expr.Symbol 0))).forward
        qOps 5).map Prod.fst = .ok ((4:ℚ) - 2) from rfl]
    norm_num

/-- C2: on the tape with one variable `x` bound to `3.0` and the node
`Mul(x, x)` built with the same tape index as both operands, forward
evaluation returns `9.0` and backward propagation with seed gradient `1.0`
accumulates (adds, not overwrites) both contributions, leaving the gradient
of `x` at `6.0`. -/
theorem revad_c2_mul_same_index_accumulation :
    (let x := (Graph.empty ℚ).var 3
    let m := x.2.mul x.1 x.1
    ((do
      let (v, g1) ← forwardStep qOps 5 m.2 m.1
      let g2 ← backwardStep qOps 5 g1 m.1 1
      pure (v, g2.get_gradient x.1)) : Except EvalErr (ℚ × ℚ))) = .ok (9, 6) := by
  rw [show (let x := (Graph.empty ℚ).var 3
      let m := x.2.mul x.1 x.1
      ((do
        let (v, g1) ← forwardStep qOps 5 m.2 m.1
        let g2 ← backwardStep qOps 5 g1 m.1 1
        pure (v, g2.get_gradient x.1)) : Except EvalErr (ℚ × ℚ)))
    = .ok ((3:ℚ) * 3, ((0:ℚ) + 3 * 1) + 3 * 1) from rfl]
  norm_num

/-- C3: on a `Pow(l, r)` node whose operands are distinct bound variables
with memoized forward values `l` and `r`, the backward pass with upstream
gradient `u` adds `r·l^(r−1)·u` to the left operand's gradient and
`ln(l)·l^(r−1)·u` to the exponent's gradient — exactly the documented
formulas — and touches no other gradient slot. -/
theorem revad_c3_pow_backward_formula [Field α] (ops : ScalarOps α) (fuel : Nat)
    (g : Graph α) (i li ri lv rv : Nat) (l r u : α)
    (hn : g.nodes[i]? = some (.Pow li ri))
    (hbl : g.buffer[li]? = some (some l)) (hbr : g.buffer[ri]? = some (some r))
    (hnl : g.nodes[li]? = some (.Var lv)) (hnr : g.nodes[ri]? = some (.Var rv))
    (hd : lv ≠ rv) (hlv : lv < g.gradients.length) (hrv : rv < g.gradients.length) :
    ∃ g', backwardStep ops (fuel+2) g i u = .ok g' ∧
      g'.get_gradient lv = g.get_gradient lv + r * ops.fpow l (r - 1) * u ∧
      g'.get_gradient rv = g.get_gradient rv + ops.fln l * ops.fpow l (r - 1) * u ∧
      ∀ j, j ≠ lv → j ≠ rv → g'.get_gradient j = g.get_gradient j := by
  have hpos : 0 < fuel + 1 := by omega
  have hA : backwardStep ops (fuel+1) g li (r * ops.fpow l (r - 1) * u) =
      .ok { g with gradients :=
        g.gradients.set lv (g.gradients.getD lv 0 + r * ops.fpow l (r - 1) * u) } :=
    backwardStep_var_run ops hnl hlv
  refine ⟨Graph.mk
      ((g.gradients.set lv (g.gradients.getD lv 0 + r * ops.fpow l (r - 1) * u)).set rv
        ((g.gradients.set lv (g.gradients.getD lv 0 + r * ops.fpow l (r - 1) * u)).getD rv 0
          + ops.fln l * ops.fpow l (r - 1) * u))
      g.buffer g.nodes g.value_ics g.compiled, ?_, ?_, ?_, ?_⟩
  · rw [backwardStep_pow_run ops hn hpos hbl hbr, hA, except_ok_bind]
    exact backwardStep_var_run ops
      (show _ = some (Node.Var rv) from hnr)
      (show rv < (g.gradients.set lv _).length from by rw [List.length_set]; exact hrv)
  · show ((g.gradients.set lv (g.gradients.getD lv 0 + r * ops.fpow l (r - 1) * u)).set rv
        _).getD lv 0 = _
    rw [getD_set_ne _ _ (Ne.symm hd), getD_set_self _ _ hlv]
    rfl
  · show ((g.gradients.set lv (g.gradients.getD lv 0 + r * ops.fpow l (r - 1) * u)).set rv
        _).getD rv 0 = _
    rw [getD_set_self _ _ (by rw [List.length_set]; exact hrv),
      getD_set_ne _ _ hd]
    rfl
  · intro j hjl hjr
    show ((g.gradients.set lv (g.gradients.getD lv 0 + r * ops.fpow l (r - 1) * u)).set rv
        _).getD j 0 = _
    rw [getD_set_ne _ _ (Ne.symm hjr), getD_set_ne _ _ (Ne.symm hjl)]
    rfl

/-- Witness for C3: a concrete tape `[Var 0, Var 1, Pow 0 1]` over ℚ with
`l = 3`, `r = 2` bound, run at upstream gradient `1`. -/
theorem revad_c3_witness :
    ∃ g', backwardStep qOps 7 ((((Graph.empty ℚ).var 3).2.var 2).2.pow 0 1).2 2 1 = .ok g' ∧
      g'.get_gradient 0 = ((((Graph.empty ℚ).var 3).2.var 2).2.pow 0 1).2.get_gradient 0
        + 2 * qOps.fpow 3 (2 - 1) * 1 ∧
      g'.get_gradient 1 = ((((Graph.empty ℚ).var 3).2.var 2).2.pow 0 1).2.get_gradient 1
        + qOps.fln 3 * qOps.fpow 3 (2 - 1) * 1 ∧
      ∀ j, j ≠ 0 → j ≠ 1 →
        g'.get_gradient j = ((((Graph.empty ℚ).var 3).2.var 2).2.pow 0 1).2.get_gradient j :=
  revad_c3_pow_backward_formula qOps 5 _ 2 0 1 0 1 3 2 1
    rfl rfl rfl rfl rfl (by decide) (by decide) (by decide)

/-- C4: on a `Neg(x)` node whose operand is a bound variable with memoized
forward value `x`, the backward pass with upstream gradient `u` adds
`−u·x` — the documented formula, which multiplies by the operand's value —
to the operand's gradient, and touches no other slot. -/
theorem revad_c4_neg_backward_formula [Field α] (ops : ScalarOps α) (fuel : Nat)
    (g : Graph α) (i o vv : Nat) (x u : α)
    (hn : g.nodes[i]? = some (.Neg o))
    (hb : g.buffer[o]? = some (some x))
    (hno : g.nodes[o]? = some (.Var vv))
    (hvv : vv < g.gradients.length) :
    ∃ g', backwardStep ops (fuel+2) g i u = .ok g' ∧
      g'.get_gradient vv = g.get_gradient vv + (-u * x) ∧
      ∀ j, j ≠ vv → g'.get_gradient j = g.get_gradient j := by
  have hpos : 0 < fuel + 1 := by omega
  refine ⟨Graph.mk (g.gradients.set vv (g.gradients.getD vv 0 + -u * x))
      g.buffer g.nodes g.value_ics g.compiled, ?_, ?_, ?_⟩
  · rw [backwardStep_neg_run ops hn hpos hb]
    exact backwardStep_var_run ops hno hvv
  · show (g.gradients.set vv (g.gradients.getD vv 0 + -u * x)).getD vv 0 = _
    rw [getD_set_self _ _ hvv]
    rfl
  · intro j hj
    show (g.gradients.set vv (g.gradients.getD vv 0 + -u * x)).getD j 0 = _
    rw [getD_set_ne _ _ (Ne.symm hj)]
    rfl

/-- Witness for C4: the concrete tape `[Var 0, Neg 0]` over ℚ with the
variable bound to `5`, upstream gradient `1`: the operand's gradient gains
`−1·5 = −5`. -/
theorem revad_c4_witness :
    ∃ g', backwardStep qOps 7 (((Graph.empty ℚ).var 5).2.neg 0).2 1 1 = .ok g' ∧
      g'.get_gradient 0 = (((Graph.empty ℚ).var 5).2.neg 0).2.get_gradient 0 + (-1 * 5) ∧
      ∀ j, j ≠ 0 → g'.get_gradient j = (((Graph.empty ℚ).var 5).2.neg 0).2.get_gradient j :=
  revad_c4_neg_backward_formula qOps 5 _ 1 0 0 5 1 rfl rfl rfl (by decide)

/-- C5: running `gradient_cached` — reset, rebind, forward, backward — on
any tape whose structure (nodes, variable index list, compiled root, buffer
length, parallel gradient length) and variable-slot contents agree with the
fresh tape built from the same variable values `vals` and compiled
expression `e` produces exactly the same result as building that fresh tape,
binding the same inputs `x`, and running forward then backward: no
cross-cycle state leaks beyond the variable bindings. -/
theorem revad_c5_cached_equals_fresh [Field α] (ops : ScalarOps α) (fuel : Nat)
    (g : Graph α) (vals x : List α) (e : Expr α)
    (hn : g.nodes = (freshTape vals e).nodes)
    (hv : g.value_ics = (freshTape vals e).value_ics)
    (hc : g.compiled = (freshTape vals e).compiled)
    (hbl : g.buffer.length = (freshTape vals e).buffer.length)
    (hgl : g.gradients.length = g.buffer.length)
    (hvals : ∀ i ∈ g.value_ics, g.buffer[i]? = (freshTape vals e).buffer[i]?)
    (_hx : x.length ≤ vals.length) :
    gradient_cached ops fuel g x = freshRun ops fuel vals e x := by
  have hfr : FreshState (freshTape vals e) := FreshState.freshTape vals e
  have hreset : g.reset = freshTape vals e := by
    rw [reset_congr hn hv hc hbl (by rw [hgl, hbl]; exact hfr.len_eq.symm) hgl hvals]
    exact reset_of_freshState hfr
  unfold gradient_cached freshRun
  rw [hreset]

/-- Witness for C5: the used tape is itself the fresh tape for one variable
bound to `3` and the expression `x * x`, rebound to `2`. -/
theorem revad_c5_witness :
    gradient_cached qOps 9 (freshTape [(3:ℚ)] (Expr.Mul (Expr.Symbol 0) (Expr.Symbol 0))) [2]
      = freshRun qOps 9 [(3:ℚ)] (Expr.Mul (Expr.Symbol 0) (Expr.Symbol 0)) [2] :=
  revad_c5_cached_equals_fresh qOps 9 _ [(3:ℚ)] [2]
    (Expr.Mul (Expr.Symbol 0) (Expr.Symbol 0))
    rfl rfl rfl rfl rfl (fun i _ => rfl) (by decide)

/-- C6: `reset` preserves the node sequence, the variable index list, the
compiled root, both array lengths and the bound values of all variable
slots; it clears every in-range non-variable value slot to unknown and
(under the §3 parallel-length invariant) every gradient slot to zero. -/
theorem revad_c6_reset_frame [Zero α] (g : Graph α)
    (hlen : g.gradients.length = g.buffer.length) :
    g.reset.nodes = g.nodes ∧ g.reset.value_ics = g.value_ics ∧
    g.reset.compiled = g.compiled ∧
    g.reset.buffer.length = g.buffer.length ∧
    g.reset.gradients.length = g.gradients.length ∧
    (∀ i ∈ g.value_ics, g.reset.buffer[i]? = g.buffer[i]?) ∧
    (∀ i, i < g.buffer.length → i ∉ g.value_ics → g.reset.buffer[i]? = some none) ∧
    (∀ i, i < g.gradients.length → g.reset.gradients[i]? = some 0) := by
  refine ⟨reset_nodes g, reset_value_ics g, reset_compiled g, reset_buffer_length g,
    reset_gradients_length g, ?_, ?_, fun i hi => reset_gradients_getElem g hlen i hi⟩
  · intro i hi
    rw [reset_buffer_getElem, if_neg (fun hcj => hcj.2 hi)]
  · intro i h1 h2
    rw [reset_buffer_getElem, if_pos ⟨h1, h2⟩]

/-- Witness for C6: the tape `[Var 0, Mul 0 0]` over ℚ with the variable
bound to `3`. -/
theorem revad_c6_witness :
    (((Graph.empty ℚ).var 3).2.mul 0 0).2.reset.nodes
        = (((Graph.empty ℚ).var 3).2.mul 0 0).2.nodes ∧
    (((Graph.empty ℚ).var 3).2.mul 0 0).2.reset.value_ics
        = (((Graph.empty ℚ).var 3).2.mul 0 0).2.value_ics ∧
    (((Graph.empty ℚ).var 3).2.mul 0 0).2.reset.compiled
        = (((Graph.empty ℚ).var 3).2.mul 0 0).2.compiled ∧
    (((Graph.empty ℚ).var 3).2.mul 0 0).2.reset.buffer.length
        = (((Graph.empty ℚ).var 3).2.mul 0 0).2.buffer.length ∧
    (((Graph.empty ℚ).var 3).2.mul 0 0).2.reset.gradients.length
        = (((Graph.empty ℚ).var 3).2.mul 0 0).2.gradients.length ∧
    (∀ i ∈ (((Graph.empty ℚ).var 3).2.mul 0 0).2.value_ics,
      (((Graph.empty ℚ).var 3).2.mul 0 0).2.reset.buffer[i]?
        = (((Graph.empty ℚ).var 3).2.mul 0 0).2.buffer[i]?) ∧
    (∀ i, i < (((Graph.empty ℚ).var 3).2.mul 0 0).2.buffer.length →
      i ∉ (((Graph.empty ℚ).var 3).2.mul 0 0).2.value_ics →
      (((Graph.empty ℚ).var 3).2.mul 0 0).2.reset.buffer[i]? = some none) ∧
    (∀ i, i < (((Graph.empty ℚ).var 3).2.mul 0 0).2.gradients.length →
      (((Graph.empty ℚ).var 3).2.mul 0 0).2.reset.gradients[i]? = some 0) :=
  revad_c6_reset_frame (((Graph.empty ℚ).var 3).2.mul 0 0).2 rfl

/-- C7: with no compiled root, `forward` and `backward` fail with the
source's fatal `"No compiled expression"` condition, returning no value and
no mutated state; with a compiled root present, `forward` evaluates exactly
that root and `backward` seeds exactly that root with gradient `1`. -/
theorem revad_c7_requires_compile [Field α] (ops : ScalarOps α) (fuel : Nat)
    (g : Graph α) :
    (g.compiled = none →
      g.forward ops fuel = .error .noCompiled ∧
      g.backward ops fuel = .error .noCompiled) ∧
    ∀ root, g.compiled = some root →
      g.forward ops fuel = forwardStep ops fuel g root ∧
      g.backward ops fuel = backwardStep ops fuel g root 1 := by
  refine ⟨fun h => ⟨?_, ?_⟩, fun root h => ⟨?_, ?_⟩⟩
  · unfold Graph.forward
    rw [h]
  · unfold Graph.backward
    rw [h]
  · unfold Graph.forward
    rw [h]
  · unfold Graph.backward
    rw [h]

/-- Witness for C7: the empty tape (never compiled) errors out; the
compiled tape for `x * x` dispatches to its root index `1`. -/
theorem revad_c7_witness :
    ((Graph.empty ℚ).forward qOps 3 = .error .noCompiled ∧
      (Graph.empty ℚ).backward qOps 3 = .error .noCompiled) ∧
    ((freshTape [(3:ℚ)] (Expr.Mul (Expr.Symbol 0) (Expr.Symbol 0))).forward qOps 9
        = forwardStep qOps 9 (freshTape [(3:ℚ)] (Expr.Mul (Expr.Symbol 0) (Expr.Symbol 0))) 1 ∧
      (freshTape [(3:ℚ)] (Expr.Mul (Expr.Symbol 0) (Expr.Symbol 0))).backward qOps 9
        = backwardStep qOps 9 (freshTape [(3:ℚ)] (Expr.Mul (Expr.Symbol 0) (Expr.Symbol 0))) 1 1) :=
  ⟨(revad_c7_requires_compile qOps 3 (Graph.empty ℚ)).1 rfl,
   (revad_c7_requires_compile qOps 9
      (freshTape [(3:ℚ)] (Expr.Mul (Expr.Symbol 0) (Expr.Symbol 0)))).2 1 rfl⟩

/-- C8: `subs_vars` on a tape whose declared variable indices are distinct
and in range: strictly more values than declared variables hits the
source's assertion (`none`, no silent truncation); otherwise the `k`-th
value is written into the `k`-th declared variable slot, in declaration
order, and every other slot — and every other tape component — is
unchanged. -/
theorem revad_c8_subs_vars_contract (g : Graph α) (vals : List α)
    (hnd : g.value_ics.Nodup) (hrange : ∀ i ∈ g.value_ics, i < g.buffer.length) :
    (g.value_ics.length < vals.length → g.subs_vars vals = none) ∧
    (vals.length ≤ g.value_ics.length →
      ∃ g', g.subs_vars vals = some g' ∧
        g'.nodes = g.nodes ∧ g'.value_ics = g.value_ics ∧ g'.compiled = g.compiled ∧
        g'.gradients = g.gradients ∧ g'.buffer.length = g.buffer.length ∧
        (∀ k, (hk : k < vals.length) → (hk2 : k < g.value_ics.length) →
          g'.buffer[g.value_ics[k]]? = some (some vals[k])) ∧
        (∀ j, j ∉ g.value_ics.take vals.length → g'.buffer[j]? = g.buffer[j]?)) := by
  constructor
  · intro h
    rw [Graph.subs_vars, if_neg (by omega)]
  · intro h
    refine ⟨Graph.mk g.gradients
        ((g.value_ics.zip vals).foldl (fun b p => b.set p.1 (some p.2)) g.buffer)
        g.nodes g.value_ics g.compiled,
      by rw [Graph.subs_vars, if_pos (by omega)], rfl, rfl, rfl, rfl,
      foldl_set_pairs_length _ _, ?_, ?_⟩
    · intro k hk hk2
      have hzlen : k < (g.value_ics.zip vals).length := by
        rw [List.length_zip]
        omega
      have hmem : (g.value_ics[k], vals[k]) ∈ g.value_ics.zip vals := by
        rw [show (g.value_ics[k], vals[k]) = (g.value_ics.zip vals)[k] from
          List.getElem_zip.symm]
        exact List.getElem_mem hzlen
      have hnd2 : ((g.value_ics.zip vals).map Prod.fst).Nodup := by
        rw [map_fst_zip_eq_take]
        exact (List.take_sublist _ _).nodup hnd
      show ((g.value_ics.zip vals).foldl (fun b p => b.set p.1 (some p.2))
        g.buffer)[g.value_ics[k]]? = some (some vals[k])
      rw [show (g.value_ics[k] : Nat) = ((g.value_ics[k], vals[k]) : Nat × α).1 from rfl,
        foldl_set_pairs_mem g.buffer hnd2 hmem]
      exact if_pos (hrange _ (List.getElem_mem hk2))
    · intro j hj
      show ((g.value_ics.zip vals).foldl (fun b p => b.set p.1 (some p.2))
        g.buffer)[j]? = g.buffer[j]?
      refine foldl_set_pairs_not_mem ?_
      rw [map_fst_zip_eq_take]
      exact hj

/-- Witness for C8: a tape with two declared variables rebound with the
single value `7`. -/
theorem revad_c8_witness :
    ((((Graph.empty ℚ).var 3).2.var 5).2.value_ics.length < [(7:ℚ), 8, 9].length →
      (((Graph.empty ℚ).var 3).2.var 5).2.subs_vars [(7:ℚ), 8, 9] = none) ∧
    ([(7:ℚ)].length ≤ (((Graph.empty ℚ).var 3).2.var 5).2.value_ics.length →
      ∃ g', (((Graph.empty ℚ).var 3).2.var 5).2.subs_vars [(7:ℚ)] = some g' ∧
        g'.nodes = (((Graph.empty ℚ).var 3).2.var 5).2.nodes ∧
        g'.value_ics = (((Graph.empty ℚ).var 3).2.var 5).2.value_ics ∧
        g'.compiled = (((Graph.empty ℚ).var 3).2.var 5).2.compiled ∧
        g'.gradients = (((Graph.empty ℚ).var 3).2.var 5).2.gradients ∧
        g'.buffer.length = (((Graph.empty ℚ).var 3).2.var 5).2.buffer.length ∧
        (∀ k, (hk : k < [(7:ℚ)].length) →
          (hk2 : k < (((Graph.empty ℚ).var 3).2.var 5).2.value_ics.length) →
          g'.buffer[(((Graph.empty ℚ).var 3).2.var 5).2.value_ics[k]]?
            = some (some ([(7:ℚ)][k]))) ∧
        (∀ j, j ∉ (((Graph.empty ℚ).var 3).2.var 5).2.value_ics.take [(7:ℚ)].length →
          g'.buffer[j]? = (((Graph.empty ℚ).var 3).2.var 5).2.buffer[j]?)) := by
  have h3 := revad_c8_subs_vars_contract (((Graph.empty ℚ).var 3).2.var 5).2
    [(7:ℚ), 8, 9] (by decide) (by decide)
  have h1 := revad_c8_subs_vars_contract (((Graph.empty ℚ).var 3).2.var 5).2
    [(7:ℚ)] (by decide) (by decide)
  exact ⟨h3.1, h1.2⟩

/-- C9: every tape built through `var` / `touch_vars`, the per-operation
constructors applied to existing indices, and `compile` of expressions
whose `Symbol` leaves name existing indices satisfies the §3 invariant —
node `i` references only operand indices `< i` — and consequently neither
the recursive forward pass nor the recursive backward pass can run out of
fuel exceeding the index: the traversals terminate without cycle
detection. -/
theorem revad_c9_built_invariant_terminates [Field α] (ops : ScalarOps α)
    (g : Graph α) (hb : Built g) :
    NodeInv g ∧
    ∀ (i fuel : Nat), i < fuel →
      (∀ e, forwardStep ops fuel g i = .error e → e ≠ .outOfFuel) ∧
      (∀ u e, backwardStep ops fuel g i u = .error e → e ≠ .outOfFuel) :=
  ⟨hb.nodeInv, fun i fuel hlt =>
    ⟨fun e he => forwardStep_no_fuel ops fuel g i e hb.nodeInv hlt he,
     fun u e he => backwardStep_no_fuel ops fuel g i u e hb.nodeInv hlt he⟩⟩

/-- Witness for C9: the tape `[Var 0, Mul 0 0]` built through `var` and
`mul` on existing indices. -/
theorem revad_c9_witness :
    NodeInv (((Graph.empty ℚ).var 3).2.mul 0 0).2 ∧
    ∀ (i fuel : Nat), i < fuel →
      (∀ e, forwardStep qOps fuel (((Graph.empty ℚ).var 3).2.mul 0 0).2 i = .error e →
        e ≠ .outOfFuel) ∧
      (∀ u e, backwardStep qOps fuel (((Graph.empty ℚ).var 3).2.mul 0 0).2 i u = .error e →
        e ≠ .outOfFuel) :=
  revad_c9_built_invariant_terminates qOps (((Graph.empty ℚ).var 3).2.mul 0 0).2
    (Built.mul (Built.var 3 Built.empty) (by decide) (by decide))


/-- C10 (amended): for a compiled tape whose gradients are all zero, whose
memoized slots before the forward pass are bound variable slots or already
evaluated sub-dags, and whose root has been forward-evaluated within the
fuel bound, the forward run leaves every gradient slot unchanged, and
running `backward` twice in succession leaves every gradient slot at
exactly twice its value after the single first run: the passes only ever
add into gradient slots and never clear or overwrite them. -/
theorem revad_c10_forward_frame_backward_doubles [Field α] (ops : ScalarOps α)
    (fuel : Nat) (g0 : Graph α) (root : Nat) (v : α) (g : Graph α)
    (hinv : NodeInv g0) (hpre : PreGood g0)
    (hroot : g0.compiled = some root) (hrf : root < fuel)
    (hfw : g0.forward ops fuel = .ok (v, g))
    (hz : ∀ j, g0.gradients.getD j 0 = 0) :
    g.gradients = g0.gradients ∧
    ∃ g1 g2, g.backward ops fuel = .ok g1 ∧ g1.backward ops fuel = .ok g2 ∧
      ∀ j, g2.gradients.getD j 0 = 2 * g1.gradients.getD j 0 := by
  have hstep : forwardStep ops fuel g0 root = .ok (v, g) := by
    unfold Graph.forward at hfw
    rw [hroot] at hfw
    exact hfw
  have hframe := (forwardStep_ok ops fuel g0 root v g hstep).1
  have hgr : g.gradients = g0.gradients := hframe.2.1
  have hcomp : g.compiled = some root := by rw [hframe.2.2.2.1, hroot]
  have hev : evald fuel g root :=
    (forwardStep_evald ops fuel g0 root v g hstep hinv hpre hrf).1
  obtain ⟨g1, k1, e1, _, gb1, gn1, _, gc1, gl1, _, _, _, _, _, _⟩ :=
    backwardStep_delta ops fuel g g root 1 hev rfl rfl rfl
  have hev1 : evald fuel g1 root :=
    evald_extend gn1 (fun j w hj => by rw [gb1]; exact hj) gl1 hev
  obtain ⟨g2, k2, f1, f2, _, _, _, _, _, _, _, _, _, _, hd⟩ :=
    backwardStep_delta ops fuel g1 g root 1 hev1 gn1.symm gb1.symm gl1.symm
  have hk2 : k2 = g1 := Except.ok.inj (f2.symm.trans e1)
  have hback : g.backward ops fuel = .ok g1 := by
    unfold Graph.backward
    rw [hcomp]
    exact e1
  have hback1 : g1.backward ops fuel = .ok g2 := by
    unfold Graph.backward
    rw [gc1, hcomp]
    exact f1
  refine ⟨hgr, g1, g2, hback, hback1, ?_⟩
  intro j
  have h1 := hd j
  rw [hk2] at h1
  have hz2 : g.gradients.getD j 0 = 0 := by rw [hgr]; exact hz j
  rw [hz2] at h1
  linear_combination h1

theorem nodeInv_T10 :
    NodeInv (freshTape [(3:ℚ)] (Expr.Mul (Expr.Symbol 0) (Expr.Symbol 0))) :=
  Built.nodeInv (Built.compile (Built.var 3 Built.empty) (by decide))

theorem preGood_T10 :
    PreGood (freshTape [(3:ℚ)] (Expr.Mul (Expr.Symbol 0) (Expr.Symbol 0))) := by
  intro j w hj
  cases j with
  | zero => exact Or.inl (by show (0:Nat) < 2; decide)
  | succ j =>
    cases j with
    | zero =>
      have hj2 : (some (none : Option ℚ) : Option (Option ℚ)) = some (some w) := hj
      simp at hj2
    | succ j =>
      have hj2 : (none : Option (Option ℚ)) = some (some w) := hj
      simp at hj2

theorem gradZero_T10 :
    ∀ j, (freshTape [(3:ℚ)]
      (Expr.Mul (Expr.Symbol 0) (Expr.Symbol 0))).gradients.getD j 0 = 0 := by
  intro j
  cases j with
  | zero => rfl
  | succ j =>
    cases j with
    | zero => rfl
    | succ j => rfl

/-- Witness for the amended C10: the fresh compiled tape for `x * x` at
`x = 3`. -/
theorem revad_c10_witness :
    ∃ p : ℚ × Graph ℚ,
      (freshTape [(3:ℚ)] (Expr.Mul (Expr.Symbol 0) (Expr.Symbol 0))).forward qOps 5
        = .ok p ∧
      p.2.gradients
        = (freshTape [(3:ℚ)] (Expr.Mul (Expr.Symbol 0) (Expr.Symbol 0))).gradients ∧
      ∃ g1 g2, p.2.backward qOps 5 = .ok g1 ∧ g1.backward qOps 5 = .ok g2 ∧
        ∀ j, g2.gradients.getD j 0 = 2 * g1.gradients.getD j 0 := by
  refine ⟨_, rfl, ?_⟩
  exact revad_c10_forward_frame_backward_doubles qOps 5
    (freshTape [(3:ℚ)] (Expr.Mul (Expr.Symbol 0) (Expr.Symbol 0))) 1 _ _
    nodeInv_T10 preGood_T10 rfl (by decide) rfl gradZero_T10

/-- Counterexample to C10 as stated: the compiled tape for `x * x` at
`x = 3` on which one `backward` has already run is still a compiled tape
whose root has been forward-evaluated, yet from that state two further
`backward` calls take the variable's gradient from 6 to 12 and then 18 —
not twice the single-call value 12.  Doubling needs all-zero gradients
before the first of the two calls. -/
theorem revad_c10_counterexample :
    ((do
      let (_, gf) ← (freshTape [(3:ℚ)]
        (Expr.Mul (Expr.Symbol 0) (Expr.Symbol 0))).forward qOps 5
      let g1 ← gf.backward qOps 5
      let g2 ← g1.backward qOps 5
      let g3 ← g2.backward qOps 5
      pure (g2.get_gradient 0, g3.get_gradient 0)) : Except EvalErr (ℚ × ℚ))
      = .ok (12, 18) ∧ (18:ℚ) ≠ 2 * 12 := by
  constructor
  · rw [show ((do
        let (_, gf) ← (freshTape [(3:ℚ)]
          (Expr.Mul (Expr.Symbol 0) (Expr.Symbol 0))).forward qOps 5
        let g1 ← gf.backward qOps 5
        let g2 ← g1.backward qOps 5
        let g3 ← g2.backward qOps 5
        pure (g2.get_gradient 0, g3.get_gradient 0)) : Except EvalErr (ℚ × ℚ))
      = .ok ((0:ℚ)+3*1+3*1+3*1+3*1, (0:ℚ)+3*1+3*1+3*1+3*1+3*1+3*1) from rfl]
    norm_num
  · norm_num

end Revad
